import Mathlib

/-!
Verification of the `urlfile` library (`urlfile/__init__.py`): a random
access file backed by HTTP range requests (`UrlFile`) and a chunk-aligned
LRU-cached variant (`BufferedUrlFile`).

The embedding models the remote resource as a fixed list of bytes.  The
HTTP transport and the `cachetools.LRUCache` store are external
collaborators of the repository; they are modelled from the spec
(sections 3, 4.2 and 6).  All code of `urlfile/__init__.py` itself is
translated faithfully, including the following behaviour of
`_fetch_data_range` (lines 106-126): since its body contains a `yield`
statement, Python makes it a generator function, so when `verbose` is
false the statement `return data_it` terminates the generator without
yielding anything and the caller receives an empty sequence of pieces
(the range request itself is still issued, because the header returned by
`_range_request` is computed when the generator body starts running,
which happens as soon as the caller iterates the generator).
-/

/-- A byte string, as a list of byte values. -/
abbrev Bytes := List Nat

/-- The LRU cache contents: association list from chunk start offsets to
chunk contents, most recently used entry first.  Keys are integers
because all Python arithmetic in `_data` is over unbounded signed
integers. -/
abbrev Cache := List (Int × Bytes)

/-- Modelled from the spec: membership test of `cachetools.LRUCache`
(`k in cache`), which does not update recency. -/
def cacheContains (c : Cache) (k : Int) : Bool :=
  c.any (fun e => e.1 = k)

/-- Modelled from the spec: the value stored for key `k` (defaults to the
empty byte string when absent; the code only reads keys it has just
tested for membership). -/
def cacheLookup (c : Cache) (k : Int) : Bytes :=
  ((c.find? (fun e => e.1 = k)).map Prod.snd).getD []

/-- Modelled from the spec: reading `cache[k]` marks the entry most
recently used ("eviction order is least-recently-used, both on read-hit
(promotes recency) and on insert"). -/
def cachePromote (c : Cache) (k : Int) : Cache :=
  match c.find? (fun e => e.1 = k) with
  | some e => e :: c.filter (fun x => x.1 ≠ k)
  | none => c

/-- Modelled from the spec: evict least-recently-used entries (the tail
of the list) while the accounted size, `chunkSize` per resident entry
("every entry's accounted size is the configured chunk size"), exceeds
the byte budget.  The `fuel` argument bounds the number of evictions;
callers pass the cache length, which always suffices. -/
def cacheEvictFuel (chunkSize maxsize : Nat) : Nat → Cache → Cache
  | 0, c => c
  | fuel + 1, c =>
    if c.length * chunkSize ≤ maxsize then c
    else cacheEvictFuel chunkSize maxsize fuel c.dropLast

/-- Modelled from the spec: evict until the accounted-size invariant
holds. -/
def cacheEvict (chunkSize maxsize : Nat) (c : Cache) : Cache :=
  cacheEvictFuel chunkSize maxsize c.length c

/-- Modelled from the spec: `cache[k] = v` inserts (or replaces) `k` as
the most recently used entry and then evicts least-recently-used entries
until the accounted-size invariant holds; with a budget smaller than one
chunk the fresh entry itself is immediately evicted ("every insert evicts
immediately", a non-fatal pass-through). -/
def cacheInsert (chunkSize maxsize : Nat) (c : Cache) (k : Int) (v : Bytes) : Cache :=
  cacheEvict chunkSize maxsize ((k, v) :: c.filter (fun x => x.1 ≠ k))

/-- State of a `UrlFile` or `BufferedUrlFile` object: the fixed remote
resource content, the construction parameters, and the mutable fields
`_pos`, `_total_bytes_fetched`, `_num_requests` and `_cache` (the cache
is present but never touched by the plain `UrlFile` operations). -/
structure UF where
  content : Bytes
  chunkSize : Nat
  maxsize : Nat
  verbose : Bool
  pos : Int
  totalBytesFetched : Int
  numRequests : Nat
  cache : Cache
  deriving Repr, DecidableEq

/-- The resource length; `__init__` reads it from the Content-Length
header of the HEAD request, which reports the true byte count of the
resource (spec section 6, `probeMetadata`). -/
def UF.length (s : UF) : Nat := s.content.length

/-- A freshly constructed object: cursor 0, zero counters, empty cache
(`__init__` of both classes). -/
def mkUF (content : Bytes) (chunkSize maxsize : Nat) (verbose : Bool) : UF :=
  ⟨content, chunkSize, maxsize, verbose, 0, 0, 0, []⟩

/-- `UrlFile._range_request` (lines 100-104): clamps the inclusive end to
`length - 1`, increments `num_requests` by 1 and `total_bytes_fetched`
by `end - start + 1` for the clamped end, and returns the clamped end
(the model keeps the clamped end instead of the header string built from
it). -/
def rangeRequest (s : UF) (start endI : Int) : Int × UF :=
  let e := min ((s.length : Int) - 1) endI
  (e, { s with numRequests := s.numRequests + 1
             , totalBytesFetched := s.totalBytesFetched + (e - start + 1) })

/-- Modelled from the spec: the transport (`session.get` with a Range
header, spec section 6 `fetchRange`) returns the bytes of the inclusive
range `[start, end]` of the resource, restricted to the bytes that
exist. -/
def fetchBytes (content : Bytes) (start endI : Int) : Bytes :=
  (content.drop start.toNat).take (endI - start + 1).toNat

/-- Modelled from the spec: `response.iter_content(chunk_size)` yields
the body split into consecutive pieces of `n` bytes, the last piece
possibly shorter ("split the returned bytes back into individual
chunk-sized (or final-chunk-truncated) pieces").  Defined with a fuel
argument (the length of the remaining bytes bounds the number of
pieces). -/
def chunksOfFuel (n : Nat) : Nat → Bytes → List Bytes
  | 0, _ => []
  | fuel + 1, b =>
    if n = 0 ∨ b = [] then [] else b.take n :: chunksOfFuel n fuel (b.drop n)

/-- Split a byte string into `n`-sized pieces. -/
def chunksOf (n : Nat) (b : Bytes) : List Bytes :=
  chunksOfFuel n b.length b

/-- `UrlFile._fetch_data_range` (lines 106-126).  The function is a
Python generator (its body contains `yield`).  Iterating it first issues
the range request (updating both counters) and obtains the body pieces
from `iter_content`; then, if `verbose` is true, the pieces are yielded
one by one through the progress-bar loop, while if `verbose` is false
the statement `return data_it` ends the generator without yielding
anything, so the caller receives no pieces at all. -/
def fetchDataRange (s : UF) (start endI : Int) : List Bytes × UF :=
  let r := rangeRequest s start endI
  (if s.verbose then chunksOf s.chunkSize (fetchBytes s.content start r.1) else [],
   r.2)

namespace UrlFile

/-- `UrlFile._data` (lines 128-130): join of all pieces yielded for the
inclusive range `[start, start + size - 1]`. -/
def data (s : UF) (start size : Int) : Bytes × UF :=
  let r := fetchDataRange s start (start + size - 1)
  (r.1.flatten, r.2)

/-- `UrlFile.read` (lines 87-91): a positive size is used as is, any
other size is replaced by `length - pos`; the cursor advances by the
effective size. -/
def read (s : UF) (size : Int) : Bytes × UF :=
  let effSize := if 0 < size then size else (s.length : Int) - s.pos
  let r := data s s.pos effSize
  (r.1, { r.2 with pos := r.2.pos + effSize })

/-- The three `whence` values accepted by `seek` (`os.SEEK_SET`,
`os.SEEK_CUR`, `os.SEEK_END`; any other value fails the assert). -/
inductive Whence where
  | set
  | cur
  | toEnd
  deriving Repr, DecidableEq

/-- `UrlFile.seek` (lines 75-82): sets the cursor with no bounds
validation whatsoever. -/
def seek (s : UF) (offset : Int) : Whence → UF
  | .set => { s with pos := offset }
  | .cur => { s with pos := s.pos + offset }
  | .toEnd => { s with pos := (s.length : Int) + offset }

/-- `UrlFile.tell` (lines 84-85). -/
def tell (s : UF) : Int := s.pos

/-- `UrlFile.mode` (lines 50-53): always the read-only mode string. -/
def mode (_ : UF) : String := "rb"

/-- `UrlFile.readable` (lines 59-60). -/
def readable (_ : UF) : Bool := true

/-- `UrlFile.seekable` (lines 62-63). -/
def seekable (_ : UF) : Bool := true

/-- `UrlFile.writeable` (lines 65-66). -/
def writeable (_ : UF) : Bool := true

/-- `UrlFile.closed` (lines 71-73). -/
def closed (_ : UF) : Bool := false

end UrlFile

namespace BufferedUrlFile

/-- Insert the pieces yielded for a run into the cache, in order, the
`i`-th piece keyed by `start + i * chunk_size` (the loop body of
`_fetch_and_cache`, lines 151-153). -/
def insertPieces (chunkSize maxsize : Nat) (start : Int) (c : Cache) : List Bytes → Cache
  | [] => c
  | p :: ps =>
    insertPieces chunkSize maxsize (start + chunkSize)
      (cacheInsert chunkSize maxsize c start p) ps

/-- `BufferedUrlFile._fetch_and_cache` (lines 149-154): iterate the
pieces of the range, inserting each into the cache as it arrives and
accumulating the returned buffer. -/
def fetchAndCache (s : UF) (start endI : Int) : Bytes × UF :=
  let r := fetchDataRange s start endI
  (r.1.flatten,
   { r.2 with cache := insertPieces s.chunkSize s.maxsize start r.2.cache r.1 })

/-- A variant of `_fetch_and_cache` where the streamed transfer fails
after `j` pieces have been received: the loop of lines 151-153 has
already inserted those `j` pieces into the cache when the exception
escapes, and the partially accumulated buffer is discarded.  The range
request itself (and hence both counters) always precedes the failure. -/
def fetchAndCacheAborted (s : UF) (start endI : Int) (j : Nat) : UF :=
  let r := fetchDataRange s start endI
  { r.2 with cache := insertPieces s.chunkSize s.maxsize start r.2.cache (r.1.take j) }

/-- `BufferedUrlFile._align` (lines 156-157): `start - (start %
self._chunk_size)`; Python `%` with a positive modulus agrees with
`Int.emod`. -/
def align (chunkSize : Nat) (start : Int) : Int :=
  start - start % (chunkSize : Int)

/-- The inner scan of `_data` (lines 177-179): `while range_end < end
and range_end not in self._cache: range_end += self._chunk_size`, with a
fuel bound on the number of iterations.  Whenever `chunk_size ≥ 1` the
wrapper passes fuel exceeding the iteration count of every terminating
execution, so the fuel never cuts a real run short; in the degenerate
configuration `chunk_size = 0` the Python call raises inside `_align`
before this loop is ever reached, and the model returns `none`. -/
def scanEnd (c : Cache) (chunkSize : Nat) (endI : Int) : Nat → Int → Int
  | 0, rangeEnd => rangeEnd
  | fuel + 1, rangeEnd =>
    if rangeEnd < endI ∧ ¬cacheContains c rangeEnd
    then scanEnd c chunkSize endI fuel (rangeEnd + chunkSize)
    else rangeEnd

/-- The main loop of `BufferedUrlFile._data` (lines 168-184), with a
fuel bound on the number of iterations; the wrapper passes fuel
exceeding the iteration count of every terminating execution.  On a
cache hit the chunk is appended and marked most recently used; on a miss
the maximal run of missing chunks is fetched in a single request and the
cursor jumps past it. -/
def dataLoop (endI : Int) : Nat → UF → Int → Bytes → Option (Bytes × UF)
  | 0, _, _, _ => none
  | fuel + 1, s, nextStart, buffer =>
    if nextStart < endI then
      if cacheContains s.cache nextStart then
        dataLoop endI fuel { s with cache := cachePromote s.cache nextStart }
          (nextStart + s.chunkSize) (buffer ++ cacheLookup s.cache nextStart)
      else
        let rangeEnd := scanEnd s.cache s.chunkSize endI
          (endI - (nextStart + s.chunkSize)).toNat (nextStart + s.chunkSize)
        let r := fetchAndCache s nextStart (rangeEnd - 1)
        dataLoop endI fuel r.2 rangeEnd (buffer ++ r.1)
    else some (buffer, s)

/-- Python slice `b[i:j]` for a non-negative lower index `i` (the only
case the code exercises: the offset sliced off is `start % chunk_size`,
which is non-negative). -/
def pySlice (b : Bytes) (i j : Int) : Bytes :=
  (b.drop i.toNat).take (j - i).toNat

/-- `BufferedUrlFile._data` (lines 159-186).  With `chunk_size = 0` the
expression `start % self._chunk_size` in `_align` raises
`ZeroDivisionError` before anything else happens, modelled as `none`;
otherwise the buffer assembled from whole chunks is sliced back to the
requested window.  The fuel passed to the loop strictly exceeds
`end - chunk_start`, which bounds the number of iterations whenever
`chunk_size ≥ 1` because every iteration advances `next_start` by at
least one. -/
def data (s : UF) (start size : Int) : Option (Bytes × UF) :=
  if s.chunkSize = 0 then none
  else
    let chunkStart := align s.chunkSize start
    let endI := start + size
    let offset := start - chunkStart
    (dataLoop endI ((endI - chunkStart).toNat + 1) s chunkStart []).map
      (fun r => (pySlice r.1 offset (offset + size), r.2))

/-- `read` as inherited by `BufferedUrlFile` (lines 87-91, dispatching
to the overridden `_data`). -/
def read (s : UF) (size : Int) : Option (Bytes × UF) :=
  let effSize := if 0 < size then size else (s.length : Int) - s.pos
  (data s s.pos effSize).map
    (fun r => (r.1, { r.2 with pos := r.2.pos + effSize }))

/-- A `_data` call interrupted by a transport failure: the loop performs
`m` complete fetch-and-cache iterations (and any number of cache hits),
and the following fetch fails after streaming `j` pieces; the exception
then escapes `_data`, leaving the state as mutated so far.  The result
is `none` when the call would in fact have completed without an
`(m, j)`-failure (or when `chunk_size = 0`, where `_align` raises before
any request is issued). -/
def dataLoopAborted (endI : Int) : Nat → UF → Int → Nat → Nat → Option UF
  | 0, _, _, _, _ => none
  | fuel + 1, s, nextStart, m, j =>
    if nextStart < endI then
      if cacheContains s.cache nextStart then
        dataLoopAborted endI fuel { s with cache := cachePromote s.cache nextStart }
          (nextStart + s.chunkSize) m j
      else
        let rangeEnd := scanEnd s.cache s.chunkSize endI
          (endI - (nextStart + s.chunkSize)).toNat (nextStart + s.chunkSize)
        match m with
        | 0 => some (fetchAndCacheAborted s nextStart (rangeEnd - 1) j)
        | m + 1 =>
          let r := fetchAndCache s nextStart (rangeEnd - 1)
          dataLoopAborted endI fuel r.2 rangeEnd m j
    else none

/-- State left behind by a `_data` call that fails mid-stream (see
`dataLoopAborted`). -/
def dataAborted (s : UF) (start size : Int) (m j : Nat) : Option UF :=
  if s.chunkSize = 0 then none
  else
    let chunkStart := align s.chunkSize start
    let endI := start + size
    dataLoopAborted endI ((endI - chunkStart).toNat + 1) s chunkStart m j

end BufferedUrlFile

/-! ### Byte segments of the resource -/

/-- The bytes of the resource in the half-open window `[a, b)`,
restricted to existing offsets. -/
def seg (content : Bytes) (a b : Int) : Bytes :=
  (content.drop a.toNat).take (b - a).toNat

/-- The correct content of the chunk starting at offset `k`: `chunkSize`
bytes, truncated at the end of the resource. -/
def chunkAt (content : Bytes) (chunkSize : Nat) (k : Int) : Bytes :=
  (content.drop k.toNat).take chunkSize

/-- A cache entry is correct when its key (if a valid offset) is
chunk-aligned, inside the resource, and its value is exactly the chunk
content at that offset. -/
def goodEntry (content : Bytes) (chunkSize : Nat) (e : Int × Bytes) : Prop :=
  0 ≤ e.1 →
    e.1 % (chunkSize : Int) = 0 ∧ e.1 < (content.length : Int) ∧
    e.2 = chunkAt content chunkSize e.1

/-- Cache states reachable from a freshly constructed `BufferedUrlFile`
by prior gets: `_data` calls respecting the contract of spec section 4.2
(`0 ≤ start`, `start + size ≤ length`). -/
inductive CReach (content : Bytes) (chunkSize maxsize : Nat) (verbose : Bool) : UF → Prop where
  | init : CReach content chunkSize maxsize verbose (mkUF content chunkSize maxsize verbose)
  | get {s s' : UF} {start size : Int} {d : Bytes} :
      CReach content chunkSize maxsize verbose s →
      0 ≤ start → start + size ≤ (content.length : Int) →
      BufferedUrlFile.data s start size = some (d, s') →
      CReach content chunkSize maxsize verbose s'

/-- Invariant carried by every reachable state: the configuration is
unchanged, every cache entry is a correct chunk, and with
`verbose = false` the cache is still empty (nothing is ever yielded, so
nothing is ever inserted). -/
def StateOK (content : Bytes) (chunkSize maxsize : Nat) (verbose : Bool) (s : UF) : Prop :=
  s.content = content ∧ s.chunkSize = chunkSize ∧ s.maxsize = maxsize ∧
  s.verbose = verbose ∧ (∀ e ∈ s.cache, goodEntry content chunkSize e) ∧
  (verbose = false → s.cache = [])

/-- Arbitrary sequences of operations on a `BufferedUrlFile`: seeks with
any offsets, buffered reads and direct `_data` calls with any arguments,
and `_data` calls aborted mid-stream by a transport failure. -/
inductive OpReach : UF → UF → Prop where
  | refl (s : UF) : OpReach s s
  | seek {a s : UF} (offset : Int) (w : UrlFile.Whence) :
      OpReach a s → OpReach a (UrlFile.seek s offset w)
  | get {a s : UF} {start size : Int} {d : Bytes} {s' : UF} :
      OpReach a s → BufferedUrlFile.data s start size = some (d, s') → OpReach a s'
  | readOp {a s : UF} {size : Int} {d : Bytes} {s' : UF} :
      OpReach a s → BufferedUrlFile.read s size = some (d, s') → OpReach a s'
  | abortOp {a s : UF} {start size : Int} {m j : Nat} {s' : UF} :
      OpReach a s → BufferedUrlFile.dataAborted s start size m j = some s' →
      OpReach a s'

/-- Sequences of seek and read operations in which every seek lands
inside `[0, length]` and every read requests at most the bytes remaining
before the end of the resource. -/
inductive InReach : UF → UF → Prop where
  | refl (s : UF) : InReach s s
  | seek {a s : UF} (offset : Int) (w : UrlFile.Whence) :
      InReach a s → 0 ≤ (UrlFile.seek s offset w).pos →
      (UrlFile.seek s offset w).pos ≤ ((UrlFile.seek s offset w).length : Int) →
      InReach a (UrlFile.seek s offset w)
  | readU {a s : UF} (size : Int) :
      InReach a s → size ≤ (s.length : Int) - s.pos →
      InReach a (UrlFile.read s size).2
  | readB {a s : UF} {size : Int} {d : Bytes} {s' : UF} :
      InReach a s → size ≤ (s.length : Int) - s.pos →
      BufferedUrlFile.read s size = some (d, s') →
      InReach a s'

/-- Number of maximal runs of missing chunks among the `n` chunk slots
`k, k + chunk, ...`: a run is counted at its first missing slot (the
flag records whether the previous slot was already missing). -/
def runCountAux (c : Cache) (chunk : Nat) : Bool → Int → Nat → Nat
  | _, _, 0 => 0
  | prevMiss, k, n + 1 =>
    if cacheContains c k then runCountAux c chunk false (k + chunk) n
    else (if prevMiss then 0 else 1) + runCountAux c chunk true (k + chunk) n

/-- Number of maximal contiguous runs of chunks absent from the cache
among the `n` chunk slots starting at `k`. -/
def runCount (c : Cache) (chunk : Nat) (k : Int) (n : Nat) : Nat :=
  runCountAux c chunk false k n

/-! ### Basic facts about the modelled cache -/

theorem cacheContains_iff {c : Cache} {k : Int} :
    cacheContains c k = true ↔ ∃ v, (k, v) ∈ c := by
  simp only [cacheContains, List.any_eq_true, decide_eq_true_eq]
  constructor
  · rintro ⟨⟨k', v⟩, hm, h⟩
    subst h
    exact ⟨v, hm⟩
  · rintro ⟨v, hm⟩
    exact ⟨(k, v), hm, rfl⟩

theorem cacheLookup_mem {c : Cache} {k : Int} (h : cacheContains c k = true) :
    (k, cacheLookup c k) ∈ c := by
  rcases hf : c.find? (fun e => e.1 = k) with _ | f
  · exfalso
    rcases cacheContains_iff.mp h with ⟨v, hv⟩
    have hs : (c.find? (fun e => e.1 = k)).isSome :=
      List.find?_isSome.mpr ⟨(k, v), hv, by simp⟩
    rw [hf] at hs
    simp at hs
  · have hmem := List.mem_of_find?_eq_some hf
    have hkey : f.1 = k := by simpa using List.find?_some hf
    have hv : cacheLookup c k = f.2 := by simp [cacheLookup, hf]
    rw [hv, ← hkey]
    simpa using hmem

theorem cachePromote_subset {c : Cache} {k : Int} :
    ∀ e ∈ cachePromote c k, e ∈ c := by
  intro e he
  rcases hf : c.find? (fun x => x.1 = k) with _ | f
  · simpa [cachePromote, hf] using he
  · simp only [cachePromote, hf] at he
    rcases List.mem_cons.mp he with h | h
    · exact h ▸ List.mem_of_find?_eq_some hf
    · exact List.mem_of_mem_filter h

theorem cachePromote_contains {c : Cache} {k k' : Int} :
    cacheContains (cachePromote c k) k' = cacheContains c k' := by
  rcases Bool.eq_false_or_eq_true (cacheContains c k') with h' | h'
  · rw [h']
    rcases cacheContains_iff.mp h' with ⟨v, hv⟩
    apply cacheContains_iff.mpr
    rcases hf : c.find? (fun x => x.1 = k) with _ | f
    · exact ⟨v, by simpa [cachePromote, hf] using hv⟩
    · have hkey : f.1 = k := by simpa using List.find?_some hf
      simp only [cachePromote, hf]
      by_cases hk : k' = k
      · refine ⟨f.2, List.mem_cons.mpr (Or.inl ?_)⟩
        rw [hk, ← hkey]
      · exact ⟨v, List.mem_cons_of_mem _ (List.mem_filter.mpr ⟨hv, by simpa using hk⟩)⟩
  · rw [h']
    rcases Bool.eq_false_or_eq_true (cacheContains (cachePromote c k) k') with h | h
    · rcases cacheContains_iff.mp h with ⟨v, hv⟩
      have hc : cacheContains c k' = true :=
        cacheContains_iff.mpr ⟨v, cachePromote_subset _ hv⟩
      rw [h'] at hc
      exact absurd hc (by simp)
    · exact h

theorem cachePromote_length_le {c : Cache} {k : Int} :
    (cachePromote c k).length ≤ c.length := by
  rcases hf : c.find? (fun x => x.1 = k) with _ | f
  · simp [cachePromote, hf]
  · simp only [cachePromote, hf, List.length_cons]
    have hkey : f.1 = k := by simpa using List.find?_some hf
    have hmem := List.mem_of_find?_eq_some hf
    have hle : (c.filter (fun x => x.1 ≠ k)).length ≤ c.length := List.length_filter_le _ _
    rcases lt_or_eq_of_le hle with hlt | hEq
    · omega
    · exfalso
      have hall := List.filter_length_eq_length.mp hEq f hmem
      rw [hkey] at hall
      simp at hall

theorem cacheEvictFuel_subset {chunkSize maxsize : Nat} :
    ∀ (fuel : Nat) (c : Cache) (e : Int × Bytes),
      e ∈ cacheEvictFuel chunkSize maxsize fuel c → e ∈ c := by
  intro fuel
  induction fuel with
  | zero => intro c e he; simpa [cacheEvictFuel] using he
  | succ n ih =>
    intro c e he
    simp only [cacheEvictFuel] at he
    split at he
    · exact he
    · exact List.dropLast_subset _ (ih _ _ he)

theorem cacheEvictFuel_budget {chunkSize maxsize : Nat} :
    ∀ (fuel : Nat) (c : Cache), c.length ≤ fuel →
      (cacheEvictFuel chunkSize maxsize fuel c).length * chunkSize ≤ maxsize ∨
      cacheEvictFuel chunkSize maxsize fuel c = [] := by
  intro fuel
  induction fuel with
  | zero =>
    intro c hc
    right
    simpa [cacheEvictFuel] using List.length_eq_zero.mp (Nat.le_zero.mp hc)
  | succ n ih =>
    intro c hc
    simp only [cacheEvictFuel]
    split
    · left; assumption
    · exact ih c.dropLast (by simp [List.length_dropLast]; omega)

theorem cacheEvictFuel_nofit {chunkSize maxsize : Nat} {c : Cache}
    (h : c.length * chunkSize ≤ maxsize) :
    ∀ fuel, cacheEvictFuel chunkSize maxsize fuel c = c := by
  intro fuel
  cases fuel <;> simp [cacheEvictFuel, h]

theorem cacheEvict_budget {chunkSize maxsize : Nat} (c : Cache) :
    (cacheEvict chunkSize maxsize c).length * chunkSize ≤ maxsize := by
  rcases @cacheEvictFuel_budget chunkSize maxsize c.length c le_rfl
    with h | h
  · exact h
  · simp [cacheEvict] at h ⊢
    simp [h]

theorem cacheInsert_subset {chunkSize maxsize : Nat} {c : Cache} {k : Int} {v : Bytes} :
    ∀ e ∈ cacheInsert chunkSize maxsize c k v, e = (k, v) ∨ e ∈ c := by
  intro e he
  have := cacheEvictFuel_subset _ _ _ he
  rcases List.mem_cons.mp this with h | h
  · exact Or.inl h
  · exact Or.inr (List.mem_of_mem_filter h)

theorem cacheInsert_budget {chunkSize maxsize : Nat} (c : Cache) (k : Int) (v : Bytes) :
    (cacheInsert chunkSize maxsize c k v).length * chunkSize ≤ maxsize :=
  cacheEvict_budget _

theorem seg_empty {content : Bytes} {a b : Int} (h : b ≤ a) : seg content a b = [] := by
  unfold seg
  have : (b - a).toNat = 0 := by omega
  simp [this]

theorem seg_glue {content : Bytes} {a b c : Int} (h0 : 0 ≤ a) (hab : a ≤ b) (hbc : b ≤ c) :
    seg content a (min b (content.length : Int)) ++ seg content b (min c (content.length : Int))
      = seg content a (min c (content.length : Int)) := by
  rcases le_or_lt b (content.length : Int) with hbL | hbL
  · have h1 : min b (content.length : Int) = b := min_eq_left hbL
    rw [h1]
    unfold seg
    have hsplit : (min c (content.length : Int) - a).toNat
        = (b - a).toNat + (min c (content.length : Int) - b).toNat := by
      rcases le_or_lt c (content.length : Int) with h | h
      · rw [min_eq_left h]; omega
      · rw [min_eq_right (le_of_lt h)]; omega
    rw [hsplit, List.take_add, List.drop_drop]
    congr 3
    omega
  · have h1 : min b (content.length : Int) = (content.length : Int) :=
      min_eq_right (le_of_lt hbL)
    have h2 : min c (content.length : Int) = (content.length : Int) :=
      min_eq_right (by omega)
    rw [h1, h2]
    have : seg content b (content.length : Int) = [] := seg_empty (by omega)
    rw [this, List.append_nil]

theorem chunkAt_eq_seg {content : Bytes} {chunkSize : Nat} {k : Int}
    (h0 : 0 ≤ k) (hk : k < (content.length : Int)) :
    chunkAt content chunkSize k
      = seg content k (min (k + chunkSize) (content.length : Int)) := by
  unfold chunkAt seg
  rw [List.take_eq_take]
  simp only [List.length_drop]
  omega

/-! ### Facts about splitting a byte string into chunk-sized pieces -/

theorem chunksOfFuel_congr {n : Nat} :
    ∀ (fuel₁ fuel₂ : Nat) (b : Bytes), b.length ≤ fuel₁ → b.length ≤ fuel₂ →
      chunksOfFuel n fuel₁ b = chunksOfFuel n fuel₂ b := by
  intro fuel₁
  induction fuel₁ with
  | zero =>
    intro fuel₂ b h1 _
    have : b = [] := List.length_eq_zero.mp (Nat.le_zero.mp h1)
    subst this
    cases fuel₂ <;> simp [chunksOfFuel]
  | succ f ih =>
    intro fuel₂ b h1 h2
    cases fuel₂ with
    | zero =>
      have : b = [] := List.length_eq_zero.mp (Nat.le_zero.mp h2)
      subst this
      simp [chunksOfFuel]
    | succ g =>
      simp only [chunksOfFuel]
      split
      · rfl
      · rename_i hcond
        push_neg at hcond
        have hn : n ≠ 0 := hcond.1
        have hb : b ≠ [] := hcond.2
        have hlen : (b.drop n).length ≤ f ∧ (b.drop n).length ≤ g := by
          have : 0 < b.length := List.length_pos.mpr hb
          simp only [List.length_drop]
          omega
        rw [ih g (b.drop n) hlen.1 hlen.2]

theorem chunksOf_eq (n : Nat) (b : Bytes) :
    chunksOf n b
      = if n = 0 ∨ b = [] then [] else b.take n :: chunksOf n (b.drop n) := by
  unfold chunksOf
  cases b with
  | nil => simp [chunksOfFuel]
  | cons x xs =>
    simp only [List.length_cons, chunksOfFuel]
    split
    · rfl
    · rename_i hcond
      push_neg at hcond
      have hn : n ≠ 0 := hcond.1
      congr 1
      apply chunksOfFuel_congr
      · simp only [List.length_drop, List.length_cons]
        omega
      · exact le_rfl

theorem chunksOf_flatten {n : Nat} (hn : 1 ≤ n) :
    ∀ (fuel : Nat) (b : Bytes), b.length ≤ fuel → (chunksOf n b).flatten = b := by
  intro fuel
  induction fuel with
  | zero =>
    intro b h
    have : b = [] := List.length_eq_zero.mp (Nat.le_zero.mp h)
    subst this
    simp [chunksOf_eq]
  | succ f ih =>
    intro b h
    rw [chunksOf_eq]
    split
    · rename_i hcond
      rcases hcond with h0 | h0
      · omega
      · simp [h0]
    · rename_i hcond
      push_neg at hcond
      have hb : b ≠ [] := hcond.2
      have : 0 < b.length := List.length_pos.mpr hb
      simp only [List.flatten_cons]
      rw [ih (b.drop n) (by simp only [List.length_drop]; omega)]
      exact List.take_append_drop n b

theorem chunksOf_getD {n : Nat} (hn : 1 ≤ n) :
    ∀ (fuel : Nat) (b : Bytes) (i : Nat), b.length ≤ fuel →
      (chunksOf n b).getD i [] = (b.drop (i * n)).take n := by
  intro fuel
  induction fuel with
  | zero =>
    intro b i h
    have : b = [] := List.length_eq_zero.mp (Nat.le_zero.mp h)
    subst this
    simp [chunksOf_eq]
  | succ f ih =>
    intro b i h
    rw [chunksOf_eq]
    split
    · rename_i hcond
      rcases hcond with h0 | h0
      · omega
      · simp [h0]
    · rename_i hcond
      push_neg at hcond
      have hb : b ≠ [] := hcond.2
      have hpos : 0 < b.length := List.length_pos.mpr hb
      cases i with
      | zero => simp
      | succ i =>
        simp only [List.getD_cons_succ]
        rw [ih (b.drop n) i (by simp only [List.length_drop]; omega)]
        rw [List.drop_drop]
        congr 2
        ring

theorem scanEnd_spec {c : Cache} {chunk : Nat} (hc : 1 ≤ chunk) {endI : Int} :
    ∀ (fuel : Nat) (r : Int), (endI - r).toNat ≤ fuel →
      ∃ m : Nat, BufferedUrlFile.scanEnd c chunk endI fuel r = r + m * chunk ∧
        (endI ≤ r + m * chunk ∨ cacheContains c (r + m * chunk) = true) ∧
        (∀ i : Nat, i < m → cacheContains c (r + i * chunk) = false) ∧
        (∀ i : Nat, i < m → r + i * chunk < endI) := by
  intro fuel
  induction fuel with
  | zero =>
    intro r h
    refine ⟨0, by simp [BufferedUrlFile.scanEnd], Or.inl (by omega), by omega, by omega⟩
  | succ f ih =>
    intro r h
    simp only [BufferedUrlFile.scanEnd]
    split
    · rename_i hcond
      obtain ⟨hr, hnc⟩ := hcond
      obtain ⟨m, h1, h2, h3, h4⟩ := ih (r + chunk) (by omega)
      refine ⟨m + 1, ?_, ?_, ?_, ?_⟩
      · rw [h1]; push_cast; ring
      · have : r + chunk + (m : Int) * chunk = r + ((m : Int) + 1) * chunk := by ring
        rw [this] at h2
        push_cast
        exact h2
      · intro i hi
        cases i with
        | zero =>
          simpa using Bool.not_eq_true _ ▸ (by simpa using hnc)
        | succ i =>
          have := h3 i (by omega)
          have heq : r + chunk + (i : Int) * chunk = r + ((i : Int) + 1) * chunk := by ring
          rw [heq] at this
          push_cast
          exact this
      · intro i hi
        cases i with
        | zero => simpa using hr
        | succ i =>
          have := h4 i (by omega)
          have heq : r + chunk + (i : Int) * chunk = r + ((i : Int) + 1) * chunk := by ring
          rw [heq] at this
          push_cast
          exact this
    · rename_i hcond
      push_neg at hcond
      refine ⟨0, by simp, ?_, by omega, by omega⟩
      rcases lt_or_le r endI with hlt | hle
      · have := hcond hlt
        refine Or.inr ?_
        simpa using Bool.not_eq_false _ ▸ (by simpa using this)
      · exact Or.inl (by omega)

theorem chunksOf_length_bound {n : Nat} (hn : 1 ≤ n) :
    ∀ (fuel : Nat) (b : Bytes) (i : Nat), b.length ≤ fuel →
      i < (chunksOf n b).length → i * n < b.length := by
  intro fuel
  induction fuel with
  | zero =>
    intro b i h hi
    have : b = [] := List.length_eq_zero.mp (Nat.le_zero.mp h)
    subst this
    simp [chunksOf_eq] at hi
  | succ f ih =>
    intro b i h hi
    rw [chunksOf_eq] at hi
    split at hi
    · simp at hi
    · rename_i hcond
      push_neg at hcond
      have hpos : 0 < b.length := List.length_pos.mpr hcond.2
      simp only [List.length_cons] at hi
      cases i with
      | zero => omega
      | succ i =>
        have := ih (b.drop n) i (by simp only [List.length_drop]; omega)
          (by omega)
        simp only [List.length_drop] at this
        have : i * n < b.length - n := this
        calc (i + 1) * n = i * n + n := by ring
        _ < b.length := by omega

/-- Every piece delivered for a run fetch starting at the aligned offset
`ns` and extending `m` chunk widths is exactly the correct chunk content
for its key `ns + i * chunk`. -/
theorem run_pieces_good {content : Bytes} {chunk : Nat} (hc : 1 ≤ chunk)
    {ns R : Int} (h0 : 0 ≤ ns) (hal : ns % (chunk : Int) = 0)
    {m : Nat} (hm : R = ns + (m * chunk : Nat)) :
    ∀ i : Nat,
      i < (chunksOf chunk
        (fetchBytes content ns (min ((content.length : Int) - 1) (R - 1)))).length →
      goodEntry content chunk
        (ns + (i * chunk : Nat),
         (chunksOf chunk
           (fetchBytes content ns (min ((content.length : Int) - 1) (R - 1)))).getD i []) := by
  intro i hi
  have hTlen :
      (fetchBytes content ns (min ((content.length : Int) - 1) (R - 1))).length
        = min (min ((content.length : Int) - 1) (R - 1) - ns + 1).toNat
            (content.length - ns.toNat) := by
    unfold fetchBytes
    rw [List.length_take, List.length_drop]
  have hib : i * chunk <
      (fetchBytes content ns (min ((content.length : Int) - 1) (R - 1))).length :=
    chunksOf_length_bound hc _ _ i le_rfl hi
  have hicmc : i * chunk < m * chunk := by
    rw [hTlen] at hib
    omega
  have him : i < m := Nat.lt_of_mul_lt_mul_right hicmc
  have hstep : i * chunk + chunk ≤ m * chunk := by
    have h1 : (i + 1) * chunk ≤ m * chunk := Nat.mul_le_mul_right _ him
    calc i * chunk + chunk = (i + 1) * chunk := by ring
    _ ≤ m * chunk := h1
  intro _
  refine ⟨?_, ?_, ?_⟩
  · simp only
    have hcast : (ns + ((i * chunk : Nat) : Int)) = ns + (i : Int) * (chunk : Int) := by
      push_cast; ring
    rw [hcast, Int.add_mul_emod_self, hal]
  · rw [hTlen] at hib
    simp only
    omega
  · simp only
    rw [chunksOf_getD hc _ _ i le_rfl]
    unfold fetchBytes chunkAt
    rw [List.drop_take, List.drop_drop, List.take_take]
    have hkeyNat : (ns + ((i * chunk : Nat) : Int)).toNat = ns.toNat + i * chunk := by
      omega
    rw [hkeyNat, List.take_eq_take, List.length_drop]
    rw [hTlen] at hib
    omega

namespace BufferedUrlFile

/-- Inserting a list of pieces that are correct for their keys preserves
correctness of every cache entry. -/
theorem insertPieces_good {content : Bytes} {chunk maxsize : Nat} :
    ∀ (ps : List Bytes) (start : Int) (c : Cache),
      (∀ e ∈ c, goodEntry content chunk e) →
      (∀ i : Nat, i < ps.length → goodEntry content chunk (start + (i * chunk : Nat), ps.getD i [])) →
      ∀ e ∈ insertPieces chunk maxsize start c ps, goodEntry content chunk e := by
  intro ps
  induction ps with
  | nil =>
    intro start c hc _ e he
    exact hc e he
  | cons p ps ih =>
    intro start c hc hp e he
    simp only [insertPieces] at he
    refine ih (start + chunk) (cacheInsert chunk maxsize c start p) ?_ ?_ e he
    · intro f hf
      rcases cacheInsert_subset f hf with h | h
      · subst h
        have := hp 0 (by simp)
        simpa using this
      · exact hc f h
    · intro i hilen
      have := hp (i + 1) (by simpa using hilen)
      have heq : start + (((i + 1) * chunk : Nat) : Int)
          = start + (chunk : Int) + ((i * chunk : Nat) : Int) := by
        push_cast; ring
      rw [heq] at this
      simpa using this

end BufferedUrlFile

namespace BufferedUrlFile

theorem fetchAndCache_content (s : UF) (start endI : Int) :
    (fetchAndCache s start endI).2.content = s.content := rfl

theorem fetchAndCache_chunkSize (s : UF) (start endI : Int) :
    (fetchAndCache s start endI).2.chunkSize = s.chunkSize := rfl

theorem fetchAndCache_maxsize (s : UF) (start endI : Int) :
    (fetchAndCache s start endI).2.maxsize = s.maxsize := rfl

theorem fetchAndCache_verbose (s : UF) (start endI : Int) :
    (fetchAndCache s start endI).2.verbose = s.verbose := rfl

theorem fetchAndCache_pos (s : UF) (start endI : Int) :
    (fetchAndCache s start endI).2.pos = s.pos := rfl

theorem fetchAndCache_numRequests (s : UF) (start endI : Int) :
    (fetchAndCache s start endI).2.numRequests = s.numRequests + 1 := rfl

/-- With `verbose = true`, a run fetch returns exactly the resource
bytes of the window `[ns, R)` (clipped at the end of the resource). -/
theorem fetchAndCache_bytes_true {s : UF} (hv : s.verbose = true) (hc : 1 ≤ s.chunkSize)
    (ns R : Int) :
    (fetchAndCache s ns (R - 1)).1 = seg s.content ns (min R (s.content.length : Int)) := by
  simp only [fetchAndCache, fetchDataRange, rangeRequest, hv, if_true, UF.length]
  rw [chunksOf_flatten hc _ _ le_rfl]
  unfold fetchBytes seg
  congr 1
  omega

/-- With `verbose = true`, a run fetch starting at an aligned offset and
spanning whole chunk widths inserts only correct chunks. -/
theorem fetchAndCache_cache_true {s : UF} (hv : s.verbose = true) (hc : 1 ≤ s.chunkSize)
    {ns R : Int} (h0 : 0 ≤ ns) (hal : ns % (s.chunkSize : Int) = 0)
    {m : Nat} (hm : R = ns + (m * s.chunkSize : Nat))
    (hg : ∀ e ∈ s.cache, goodEntry s.content s.chunkSize e) :
    ∀ e ∈ (fetchAndCache s ns (R - 1)).2.cache, goodEntry s.content s.chunkSize e := by
  have hcache : (fetchAndCache s ns (R - 1)).2.cache
      = insertPieces s.chunkSize s.maxsize ns s.cache
          (chunksOf s.chunkSize
            (fetchBytes s.content ns (min ((s.content.length : Int) - 1) (R - 1)))) := by
    simp [fetchAndCache, fetchDataRange, rangeRequest, hv, UF.length]
  rw [hcache]
  exact insertPieces_good _ _ _ hg (fun i hi => run_pieces_good hc h0 hal hm i hi)

/-- With `verbose = false`, a run fetch returns no bytes and leaves the
cache unchanged (the generator yields no pieces). -/
theorem fetchAndCache_false {s : UF} (hv : s.verbose = false) (start endI : Int) :
    (fetchAndCache s start endI).1 = [] ∧
    (fetchAndCache s start endI).2.cache = s.cache := by
  constructor
  · simp [fetchAndCache, fetchDataRange, hv]
  · simp [fetchAndCache, fetchDataRange, rangeRequest, hv, insertPieces]

end BufferedUrlFile

namespace BufferedUrlFile

/-- Soundness of the main loop of `_data` for `verbose = true`: starting
from an aligned, non-negative cursor with a correct cache, the loop
returns the resource bytes of the window from the cursor up to some
final cursor `F ≥ end` (clipped at the end of the resource), appended to
the incoming buffer, and preserves cache correctness and every
configuration field. -/
theorem dataLoop_sound {content : Bytes} {chunk maxsize : Nat} (hc : 1 ≤ chunk)
    {endI : Int} :
    ∀ (fuel : Nat) (s : UF) (ns : Int) (buffer : Bytes),
      s.content = content → s.chunkSize = chunk → s.maxsize = maxsize →
      s.verbose = true →
      (∀ e ∈ s.cache, goodEntry content chunk e) →
      0 ≤ ns → ns % (chunk : Int) = 0 →
      (endI - ns).toNat < fuel →
      ∃ (F : Int) (s' : UF),
        endI ≤ F ∧ ns ≤ F ∧
        dataLoop endI fuel s ns buffer
          = some (buffer ++ seg content ns (min F (content.length : Int)), s') ∧
        (∀ e ∈ s'.cache, goodEntry content chunk e) ∧
        s'.content = content ∧ s'.chunkSize = chunk ∧ s'.maxsize = maxsize ∧
        s'.verbose = true ∧ s'.pos = s.pos := by
  intro fuel
  induction fuel with
  | zero =>
    intro s ns buffer _ _ _ _ _ _ _ hfuel
    omega
  | succ f ih =>
    intro s ns buffer hcon hcs hms hv hg h0 hal hfuel
    by_cases hlt : ns < endI
    · by_cases hhit : cacheContains s.cache ns = true
      · -- cache hit: append the resident chunk, promote it, advance one width
        have hmem := cacheLookup_mem hhit
        have hgood := hg _ hmem h0
        have hnsL : ns < (content.length : Int) := hgood.2.1
        have hval : cacheLookup s.cache ns = chunkAt content chunk ns := hgood.2.2
        obtain ⟨F, s', hF, hnsF, heq, hg', hcon', hcs', hms', hv', hpos'⟩ :=
          ih { s with cache := cachePromote s.cache ns } (ns + chunk)
            (buffer ++ cacheLookup s.cache ns) hcon hcs hms hv
            (fun e he => hg e (cachePromote_subset e he))
            (by omega)
            (by
              have h1 : ns + (chunk : Int) = ns + 1 * chunk := by ring
              rw [h1, Int.add_mul_emod_self, hal])
            (by omega)
        refine ⟨F, s', hF, by omega, ?_, hg', hcon', hcs', hms', hv', hpos'⟩
        simp only [dataLoop, if_pos hlt, if_pos hhit, hcs]
        rw [hcs] at heq
        rw [heq]
        have hbuf : (buffer ++ cacheLookup s.cache ns)
              ++ seg content (ns + chunk) (min F (content.length : Int))
            = buffer ++ seg content ns (min F (content.length : Int)) := by
          rw [List.append_assoc]
          congr 1
          rw [hval, chunkAt_eq_seg h0 hnsL]
          exact seg_glue h0 (by omega) hnsF
        rw [hbuf]
      · -- cache miss: fetch the maximal run of missing chunks in one request
        obtain ⟨m, hR, hstop, hrun, -⟩ :=
          @scanEnd_spec s.cache chunk hc endI
            ((endI - (ns + (chunk : Int))).toNat) (ns + chunk) le_rfl
        have hmc0 : (0 : Int) ≤ (m : Int) * (chunk : Int) := by positivity
        have hm1 : ns + (chunk : Int) + (m : Int) * chunk
            = ns + (((m + 1) * chunk : Nat) : Int) := by push_cast; ring
        have hcsc : 1 ≤ s.chunkSize := by rw [hcs]; exact hc
        have hals : ns % (s.chunkSize : Int) = 0 := by rw [hcs]; exact hal
        have hmS : ns + (chunk : Int) + (m : Int) * chunk
            = ns + (((m + 1) * s.chunkSize : Nat) : Int) := by rw [hcs]; exact hm1
        have hb : (fetchAndCache s ns (ns + (chunk : Int) + (m : Int) * chunk - 1)).1
            = seg content ns
                (min (ns + (chunk : Int) + (m : Int) * chunk) (content.length : Int)) := by
          rw [fetchAndCache_bytes_true hv hcsc, hcon]
        have hgc : ∀ e ∈ (fetchAndCache s ns
              (ns + (chunk : Int) + (m : Int) * chunk - 1)).2.cache,
            goodEntry content chunk e := by
          have hgs : ∀ e ∈ s.cache, goodEntry s.content s.chunkSize e := by
            rw [hcon, hcs]; exact hg
          have := fetchAndCache_cache_true hv hcsc h0 hals hmS hgs
          simpa only [hcon, hcs] using this
        obtain ⟨F, s', hF, hRF, heq, hg', hcon', hcs', hms', hv', hpos'⟩ :=
          ih (fetchAndCache s ns (ns + (chunk : Int) + (m : Int) * chunk - 1)).2
            (ns + (chunk : Int) + (m : Int) * chunk)
            (buffer ++ seg content ns
              (min (ns + (chunk : Int) + (m : Int) * chunk) (content.length : Int)))
            (by rw [fetchAndCache_content, hcon])
            (by rw [fetchAndCache_chunkSize, hcs])
            (by rw [fetchAndCache_maxsize, hms])
            (by rw [fetchAndCache_verbose, hv])
            hgc
            (by omega)
            (by
              rw [hm1]
              have h1 : ns + (((m + 1) * chunk : Nat) : Int)
                  = ns + ((m + 1 : Nat) : Int) * chunk := by push_cast; ring
              rw [h1, Int.add_mul_emod_self, hal])
            (by omega)
        refine ⟨F, s', hF, by omega, ?_, hg', hcon', hcs', hms', hv', ?_⟩
        · simp only [dataLoop, if_pos hlt, if_neg hhit, hcs]
          rw [hR, hb, heq]
          have hbuf : (buffer ++ seg content ns
                (min (ns + (chunk : Int) + (m : Int) * chunk) (content.length : Int)))
              ++ seg content (ns + (chunk : Int) + (m : Int) * chunk)
                  (min F (content.length : Int))
              = buffer ++ seg content ns (min F (content.length : Int)) := by
            rw [List.append_assoc]
            congr 1
            exact seg_glue h0 (by omega) hRF
          rw [hbuf]
        · rw [hpos', fetchAndCache_pos]
    · -- the cursor is already past the window: the loop exits
      refine ⟨ns, s, by omega, le_rfl, ?_, hg, hcon, hcs, hms, hv, rfl⟩
      simp only [dataLoop, if_neg hlt]
      rw [seg_empty (min_le_left _ _), List.append_nil]

end BufferedUrlFile

namespace BufferedUrlFile

/-- With `verbose = false` nothing is ever inserted into the cache, so
on an empty cache the loop issues a single fetch per call (covering the
whole window) but accumulates no bytes at all. -/
theorem dataLoop_false {endI : Int} :
    ∀ (fuel : Nat) (s : UF) (ns : Int) (buffer : Bytes),
      s.verbose = false → s.cache = [] → 1 ≤ s.chunkSize →
      (endI - ns).toNat < fuel →
      ∃ s', dataLoop endI fuel s ns buffer = some (buffer, s') ∧
        s'.cache = [] ∧ s'.content = s.content ∧ s'.chunkSize = s.chunkSize ∧
        s'.maxsize = s.maxsize ∧ s'.verbose = false ∧ s'.pos = s.pos ∧
        s'.numRequests = s.numRequests + (if ns < endI then 1 else 0) := by
  intro fuel
  induction fuel with
  | zero =>
    intro s ns buffer _ _ _ hfuel
    omega
  | succ f ih =>
    intro s ns buffer hv he hc hfuel
    by_cases hlt : ns < endI
    · have hhit : ¬cacheContains s.cache ns = true := by
        rw [he]; simp [cacheContains]
      obtain ⟨m, hR, hstop, -, -⟩ :=
        @scanEnd_spec s.cache s.chunkSize hc endI
          ((endI - (ns + (s.chunkSize : Int))).toNat) (ns + s.chunkSize) le_rfl
      have hRe : endI ≤ ns + (s.chunkSize : Int) + (m : Int) * s.chunkSize := by
        rcases hstop with h | h
        · exact h
        · rw [he] at h
          simp [cacheContains] at h
      have hmc0 : (0 : Int) ≤ (m : Int) * (s.chunkSize : Int) := by positivity
      obtain ⟨s', heq, hca', hcon', hcs', hms', hv', hpos', hnr'⟩ :=
        ih (fetchAndCache s ns (ns + (s.chunkSize : Int) + (m : Int) * s.chunkSize - 1)).2
          (ns + (s.chunkSize : Int) + (m : Int) * s.chunkSize)
          (buffer ++ (fetchAndCache s ns
            (ns + (s.chunkSize : Int) + (m : Int) * s.chunkSize - 1)).1)
          (by rw [fetchAndCache_verbose, hv])
          (by rw [(fetchAndCache_false hv _ _).2, he])
          (by rw [fetchAndCache_chunkSize]; exact hc)
          (by omega)
      refine ⟨s', ?_, hca', by rw [hcon', fetchAndCache_content],
        by rw [hcs', fetchAndCache_chunkSize], by rw [hms', fetchAndCache_maxsize],
        hv', by rw [hpos', fetchAndCache_pos], ?_⟩
      · simp only [dataLoop, if_pos hlt, if_neg hhit]
        rw [hR, heq, (fetchAndCache_false hv _ _).1, List.append_nil]
      · rw [hnr', fetchAndCache_numRequests, if_neg (by omega), if_pos hlt]
    · exact ⟨s, by simp only [dataLoop, if_neg hlt], he, rfl, rfl, rfl, hv, rfl,
        by rw [if_neg hlt]; omega⟩

theorem align_nonneg {chunk : Nat} (hc : 1 ≤ chunk) {start : Int} (h0 : 0 ≤ start) :
    0 ≤ align chunk start := by
  unfold align
  have h1 : start - start % chunk = chunk * (start / chunk) := by
    rw [Int.emod_def]; ring
  rw [h1]
  exact mul_nonneg (by positivity) (Int.ediv_nonneg h0 (by positivity))

theorem align_emod {chunk : Nat} {start : Int} :
    align chunk start % (chunk : Int) = 0 := by
  unfold align
  simp [Int.sub_emod]

theorem align_le {chunk : Nat} (hc : 1 ≤ chunk) {start : Int} (h0 : 0 ≤ start) :
    align chunk start ≤ start := by
  unfold align
  have := Int.emod_nonneg start (show (chunk : Int) ≠ 0 by positivity)
  omega

/-- Unfolding of a successful `_data` call into its loop. -/
theorem data_inner {s : UF} {start size : Int} {d : Bytes} {s' : UF}
    (h : data s start size = some (d, s')) :
    s.chunkSize ≠ 0 ∧
    ∃ buf, dataLoop (start + size) ((start + size - align s.chunkSize start).toNat + 1)
        s (align s.chunkSize start) [] = some (buf, s') ∧
      d = pySlice buf (start - align s.chunkSize start)
            (start - align s.chunkSize start + size) := by
  unfold data at h
  by_cases h0 : s.chunkSize = 0
  · rw [if_pos h0] at h
    exact absurd h (by simp)
  · rw [if_neg h0] at h
    simp only at h
    rcases Option.map_eq_some'.mp h with ⟨⟨buf, s₂⟩, hl, hes⟩
    have hd : d = pySlice buf (start - align s.chunkSize start)
        (start - align s.chunkSize start + size) := by
      have := congrArg Prod.fst hes
      simpa using this.symm
    have hs : s₂ = s' := by
      have := congrArg Prod.snd hes
      simpa using this
    exact ⟨h0, buf, hs ▸ hl, hd⟩

end BufferedUrlFile

/-- With `verbose = true`, a plain uncached `_data` of a valid request
returns exactly the requested window of the resource. -/
theorem urlData_bytes_true {s : UF} (hv : s.verbose = true) (hc : 1 ≤ s.chunkSize)
    {start size : Int} (hsz : start + size ≤ (s.content.length : Int)) :
    (UrlFile.data s start size).1 = seg s.content start (start + size) := by
  simp only [UrlFile.data, fetchDataRange, rangeRequest, hv, if_true, UF.length]
  rw [chunksOf_flatten hc _ _ le_rfl]
  unfold fetchBytes seg
  congr 1
  omega

/-- With `verbose = false`, a plain uncached `_data` returns the empty
byte string (the generator yields nothing). -/
theorem urlData_bytes_false {s : UF} (hv : s.verbose = false) (start size : Int) :
    (UrlFile.data s start size).1 = [] := by
  simp [UrlFile.data, fetchDataRange, hv]

/-- Slicing the requested window back out of a buffer of whole chunks. -/
theorem pySlice_seg {content : Bytes} {cs start size F : Int}
    (h0 : 0 ≤ cs) (hcs : cs ≤ start) (hsz : start + size ≤ (content.length : Int))
    (hF : start + size ≤ F) :
    BufferedUrlFile.pySlice (seg content cs (min F (content.length : Int)))
        (start - cs) (start - cs + size)
      = seg content start (start + size) := by
  unfold BufferedUrlFile.pySlice seg
  rw [List.drop_take, List.drop_drop, List.take_take]
  have hsn : cs.toNat + (start - cs).toNat = start.toNat := by omega
  rw [hsn, List.take_eq_take, List.length_drop]
  omega

theorem CReach_ok {content : Bytes} {chunkSize maxsize : Nat} {verbose : Bool} {s : UF}
    (h : CReach content chunkSize maxsize verbose s) :
    StateOK content chunkSize maxsize verbose s := by
  induction h with
  | init =>
    exact ⟨rfl, rfl, rfl, rfl, by simp [mkUF], fun _ => rfl⟩
  | @get s s' start size d hr h0 hsz hdata ih =>
    obtain ⟨hcon, hcs, hms, hv, hg, hemp⟩ := ih
    obtain ⟨hne, buf, hloop, hd⟩ := BufferedUrlFile.data_inner hdata
    have hc : 1 ≤ s.chunkSize := Nat.one_le_iff_ne_zero.mpr hne
    cases hb : verbose
    · have hv' : s.verbose = false := by rw [hv, hb]
      obtain ⟨s₂, hl2, hca2, hcon2, hcs2, hms2, hv2, hpos2, -⟩ :=
        BufferedUrlFile.dataLoop_false _ s _ [] hv' (hemp hb) hc (Nat.lt_succ_self _)
      rw [hloop] at hl2
      have hs2 : s' = s₂ := by
        have := congrArg (fun o => Option.map Prod.snd o) hl2
        simpa using this
      subst hs2
      exact ⟨by rw [hcon2, hcon], by rw [hcs2, hcs], by rw [hms2, hms],
        by simp [hv2, hb], by rw [hca2]; simp, fun _ => hca2⟩
    · have hv' : s.verbose = true := by rw [hv, hb]
      have hcg : ∀ e ∈ s.cache, goodEntry content s.chunkSize e := by
        rw [hcs]; exact hg
      obtain ⟨F, s₂, hF, hnsF, hl2, hg2, hcon2, hcs2, hms2, hv2, hpos2⟩ :=
        BufferedUrlFile.dataLoop_sound hc
          ((start + size - BufferedUrlFile.align s.chunkSize start).toNat + 1) s
          (BufferedUrlFile.align s.chunkSize start) [] hcon rfl rfl hv' hcg
          (BufferedUrlFile.align_nonneg hc h0)
          BufferedUrlFile.align_emod
          (Nat.lt_succ_self _)
      rw [hloop] at hl2
      have hs2 : s' = s₂ := by
        have := congrArg (fun o => Option.map Prod.snd o) hl2
        simpa using this
      subst hs2
      refine ⟨by simp [hcon2], by rw [hcs2, hcs], by rw [hms2, hms],
        by simp [hv2, hb], ?_, fun hf => absurd hf (by simp)⟩
      rw [← hcs]
      exact hg2

/-- C1: for every valid request (`0 ≤ start`, `start + size ≤ length`)
and every cache state reachable by prior gets on the same fixed resource
content, the cached `BufferedUrlFile._data(start, size)` returns bytes
identical to what the uncached `UrlFile._data(start, size)` direct fetch
of the same window returns.  (With `verbose = true` both return the
resource bytes of `[start, start + size)`; with the default
`verbose = false` both return the empty byte string, because
`_fetch_data_range` yields no pieces.) -/
theorem claim1_exactness {content : Bytes} {chunkSize maxsize : Nat}
    {verbose : Bool} {s : UF}
    (hreach : CReach content chunkSize maxsize verbose s) (hc : 1 ≤ chunkSize)
    {start size : Int} (h0 : 0 ≤ start) (hsz : start + size ≤ (content.length : Int)) :
    (BufferedUrlFile.data s start size).map Prod.fst
      = some (UrlFile.data s start size).1 := by
  obtain ⟨hcon, hcs, hms, hv, hg, hemp⟩ := CReach_ok hreach
  have hc' : 1 ≤ s.chunkSize := by rw [hcs]; exact hc
  have hne : ¬s.chunkSize = 0 := by omega
  simp only [BufferedUrlFile.data, if_neg hne]
  cases hbv : s.verbose
  · have hvf : verbose = false := by rw [← hv, hbv]
    obtain ⟨s₂, hl2, -, -, -, -, -, -, -⟩ :=
      @BufferedUrlFile.dataLoop_false (start + size)
        ((start + size - BufferedUrlFile.align s.chunkSize start).toNat + 1) s
        (BufferedUrlFile.align s.chunkSize start) [] hbv (hemp hvf) hc'
        (Nat.lt_succ_self _)
    rw [hl2, urlData_bytes_false hbv]
    simp [BufferedUrlFile.pySlice]
  · have hcg : ∀ e ∈ s.cache, goodEntry content s.chunkSize e := by
      rw [hcs]; exact hg
    obtain ⟨F, s₂, hF, hnsF, hl2, -, -, -, -, -, -⟩ :=
      BufferedUrlFile.dataLoop_sound hc'
        ((start + size - BufferedUrlFile.align s.chunkSize start).toNat + 1) s
        (BufferedUrlFile.align s.chunkSize start) [] hcon rfl rfl hbv hcg
        (BufferedUrlFile.align_nonneg hc' h0)
        BufferedUrlFile.align_emod
        (Nat.lt_succ_self _)
    rw [hl2, urlData_bytes_true hbv hc' (by rw [hcon]; exact hsz)]
    simp only [Option.map_some', List.nil_append]
    rw [hcon]
    congr 1
    exact pySlice_seg (BufferedUrlFile.align_nonneg hc' h0)
      (BufferedUrlFile.align_le hc' h0) hsz hF

/-- Witness for C1 at a concrete reachable state and request. -/
theorem claim1_exactness_witness :
    (BufferedUrlFile.data (mkUF [10, 11, 12, 13, 14, 15, 16, 17] 4 100 true) 2 4).map
        Prod.fst
      = some (UrlFile.data (mkUF [10, 11, 12, 13, 14, 15, 16, 17] 4 100 true) 2 4).1 :=
  claim1_exactness CReach.init (by norm_num) (by norm_num) (by norm_num)

/-- C10: `writeable()` returns `True` for every `UrlFile` and
`BufferedUrlFile` (which inherits it), even though `mode` always returns
the read-only string. -/
theorem claim10_writeable (s : UF) :
    UrlFile.writeable s = true ∧ UrlFile.mode s = "rb" :=
  ⟨rfl, rfl⟩

/-- C6 counterexample: seeking 5 bytes past the end of a 10 byte
resource and then calling `read()` makes `_range_request` clamp the end
to `length - 1 < start`, so `total_bytes_fetched` is incremented by a
negative count and decreases, refuting monotonicity. -/
theorem claim6_counterexample :
    (UrlFile.read (UrlFile.seek (mkUF [0, 1, 2, 3, 4, 5, 6, 7, 8, 9] 4 100 false)
        5 UrlFile.Whence.toEnd) (-1)).2.totalBytesFetched
      < (mkUF [0, 1, 2, 3, 4, 5, 6, 7, 8, 9] 4 100 false).totalBytesFetched := by
  decide

/-- C6 as amended: every `_range_request` call increments `num_requests`
by exactly 1 and `total_bytes_fetched` by exactly the clamped count
`min(length - 1, end) - start + 1`, so the counters always move
together; the increment is non-negative (hence both counters
non-decreasing) whenever the request starts at or before the resource
length and spans a non-empty-or-empty range (`start - 1 ≤ end`), but it
is negative for a fetch starting past the end of the resource. -/
theorem claim6_counters (s : UF) (start endI : Int)
    (h1 : start ≤ (s.length : Int)) (h2 : start - 1 ≤ endI) :
    (rangeRequest s start endI).2.numRequests = s.numRequests + 1 ∧
    (rangeRequest s start endI).2.totalBytesFetched
      = s.totalBytesFetched + (min ((s.length : Int) - 1) endI - start + 1) ∧
    s.totalBytesFetched ≤ (rangeRequest s start endI).2.totalBytesFetched := by
  refine ⟨rfl, rfl, ?_⟩
  simp only [rangeRequest]
  omega

/-- Witness for the amended C6 at a concrete state and range. -/
theorem claim6_counters_witness :
    ((0 : Int) ≤ ((mkUF [5, 6, 7] 1 10 false).length : Int) ∧ (0 : Int) - 1 ≤ 2) ∧
    ((rangeRequest (mkUF [5, 6, 7] 1 10 false) 0 2).2.numRequests
        = (mkUF [5, 6, 7] 1 10 false).numRequests + 1 ∧
      (rangeRequest (mkUF [5, 6, 7] 1 10 false) 0 2).2.totalBytesFetched
        = (mkUF [5, 6, 7] 1 10 false).totalBytesFetched
          + (min (((mkUF [5, 6, 7] 1 10 false).length : Int) - 1) 2 - 0 + 1) ∧
      (mkUF [5, 6, 7] 1 10 false).totalBytesFetched
        ≤ (rangeRequest (mkUF [5, 6, 7] 1 10 false) 0 2).2.totalBytesFetched) :=
  ⟨⟨by decide, by decide⟩, claim6_counters _ 0 2 (by decide) (by decide)⟩

/-- C7 counterexample: `seek` performs no bounds validation, so a single
`seek(-5)` leaves the cursor negative, refuting `0 ≤ pos`. -/
theorem claim7_counterexample :
    (UrlFile.seek (mkUF [0, 1, 2, 3] 4 100 false) (-5) UrlFile.Whence.set).pos < 0 := by
  decide

/-- C9 (evaluation at the failing input): on a default
(`verbose = False`) `BufferedUrlFile` over an 8 byte resource with chunk
size 4 and an ample budget of 100 bytes, `get(0, 4)` succeeds, leaves
the cache empty (no eviction ever happened, `_fetch_and_cache` inserted
nothing because `_fetch_data_range` yields no pieces), and an
immediately repeated identical `get(0, 4)` issues one more fetch:
`num_requests` goes 1 after the first call and 2 after the repeat,
not 1. -/
theorem claim9_repeat_eval :
    (BufferedUrlFile.data (mkUF [10, 11, 12, 13, 14, 15, 16, 17] 4 100 false) 0 4).map
        (fun r => ((BufferedUrlFile.data r.2 0 4).map (fun r2 => r2.2.numRequests),
                   r.2.numRequests, r.2.cache))
      = some (some 2, 1, []) := by
  decide

namespace BufferedUrlFile

/-- Inserting any pieces always leaves the accounted cache size within
the budget (each insert ends with the eviction loop), or keeps an
already-fitting cache fitting when there is nothing to insert. -/
theorem insertPieces_budget {chunk max' : Nat} :
    ∀ (ps : List Bytes) (start : Int) (c : Cache),
      c.length * chunk ≤ max' →
      (insertPieces chunk max' start c ps).length * chunk ≤ max' := by
  intro ps
  induction ps with
  | nil => intro start c h; exact h
  | cons p tail ih => intro start c h; exact ih _ _ (cacheInsert_budget c start p)

/-- The loop changes only the counters and the cache, and it keeps the
accounted cache size within the budget. -/
theorem dataLoop_state {endI : Int} :
    ∀ (fuel : Nat) (s : UF) (ns : Int) (buffer : Bytes) (r : Bytes × UF),
      dataLoop endI fuel s ns buffer = some r →
      r.2.pos = s.pos ∧ r.2.content = s.content ∧ r.2.chunkSize = s.chunkSize ∧
      r.2.maxsize = s.maxsize ∧ r.2.verbose = s.verbose ∧
      (s.cache.length * s.chunkSize ≤ s.maxsize →
        r.2.cache.length * s.chunkSize ≤ s.maxsize) := by
  intro fuel
  induction fuel with
  | zero => intro s ns buffer r h; simp [dataLoop] at h
  | succ f ih =>
    intro s ns buffer r h
    simp only [dataLoop] at h
    split at h
    · split at h
      · obtain ⟨h1, h2, h3, h4, h5, h6⟩ := ih _ _ _ _ h
        refine ⟨h1, h2, h3, h4, h5, fun hb => h6 ?_⟩
        calc (cachePromote s.cache _).length * s.chunkSize
            ≤ s.cache.length * s.chunkSize :=
              Nat.mul_le_mul_right _ cachePromote_length_le
        _ ≤ s.maxsize := hb
      · obtain ⟨h1, h2, h3, h4, h5, h6⟩ := ih _ _ _ _ h
        refine ⟨h1, h2, h3, h4, h5, fun hb => h6 (insertPieces_budget _ _ _ hb)⟩
    · obtain ⟨rfl⟩ : (buffer, s) = r := by
        injection h
      exact ⟨rfl, rfl, rfl, rfl, rfl, fun hb => hb⟩

/-- Field and budget facts for a successful `_data` call. -/
theorem data_state {s : UF} {start size : Int} {d : Bytes} {s' : UF}
    (h : data s start size = some (d, s')) :
    s'.pos = s.pos ∧ s'.content = s.content ∧ s'.chunkSize = s.chunkSize ∧
    s'.maxsize = s.maxsize ∧ s'.verbose = s.verbose ∧
    (s.cache.length * s.chunkSize ≤ s.maxsize →
      s'.cache.length * s.chunkSize ≤ s.maxsize) := by
  obtain ⟨hne, buf, hloop, hd⟩ := data_inner h
  exact dataLoop_state _ _ _ _ _ hloop

/-- Field and budget facts for a successful buffered `read` call. -/
theorem read_state {s : UF} {size : Int} {d : Bytes} {s' : UF}
    (h : read s size = some (d, s')) :
    s'.content = s.content ∧ s'.chunkSize = s.chunkSize ∧ s'.maxsize = s.maxsize ∧
    s'.verbose = s.verbose ∧
    s'.pos = s.pos + (if 0 < size then size else (s.length : Int) - s.pos) ∧
    (s.cache.length * s.chunkSize ≤ s.maxsize →
      s'.cache.length * s.chunkSize ≤ s.maxsize) := by
  simp only [read] at h
  rcases Option.map_eq_some'.mp h with ⟨⟨d₂, s₂⟩, hdata, hes⟩
  obtain ⟨hp, hc, hcs, hms, hv, hbudget⟩ := data_state hdata
  have hs' : s' = { s₂ with pos := s₂.pos + (if 0 < size then size
      else (s.length : Int) - s.pos) } := by
    have := congrArg Prod.snd hes
    simpa using this.symm
  subst hs'
  exact ⟨hc, hcs, hms, hv, by simp [hp], hbudget⟩

/-- The aborted loop likewise changes only the counters and the cache,
within budget. -/
theorem dataLoopAborted_state {endI : Int} :
    ∀ (fuel : Nat) (s : UF) (ns : Int) (m j : Nat) (s' : UF),
      dataLoopAborted endI fuel s ns m j = some s' →
      s'.pos = s.pos ∧ s'.content = s.content ∧ s'.chunkSize = s.chunkSize ∧
      s'.maxsize = s.maxsize ∧ s'.verbose = s.verbose ∧
      (s.cache.length * s.chunkSize ≤ s.maxsize →
        s'.cache.length * s.chunkSize ≤ s.maxsize) := by
  intro fuel
  induction fuel with
  | zero => intro s ns m j s' h; simp [dataLoopAborted] at h
  | succ f ih =>
    intro s ns m j s' h
    simp only [dataLoopAborted] at h
    split at h
    · split at h
      · obtain ⟨h1, h2, h3, h4, h5, h6⟩ := ih _ _ _ _ _ h
        refine ⟨h1, h2, h3, h4, h5, fun hb => h6 ?_⟩
        calc (cachePromote s.cache _).length * s.chunkSize
            ≤ s.cache.length * s.chunkSize :=
              Nat.mul_le_mul_right _ cachePromote_length_le
        _ ≤ s.maxsize := hb
      · split at h
        · obtain ⟨rfl⟩ : fetchAndCacheAborted s ns _ _ = s' := by injection h
          exact ⟨rfl, rfl, rfl, rfl, rfl,
            fun hb => insertPieces_budget _ _ _ hb⟩
        · obtain ⟨h1, h2, h3, h4, h5, h6⟩ := ih _ _ _ _ _ h
          exact ⟨h1, h2, h3, h4, h5,
            fun hb => h6 (insertPieces_budget _ _ _ hb)⟩
    · exact absurd h (by simp)

/-- Field and budget facts for an aborted `_data` call. -/
theorem dataAborted_state {s : UF} {start size : Int} {m j : Nat} {s' : UF}
    (h : dataAborted s start size m j = some s') :
    s'.pos = s.pos ∧ s'.content = s.content ∧ s'.chunkSize = s.chunkSize ∧
    s'.maxsize = s.maxsize ∧ s'.verbose = s.verbose ∧
    (s.cache.length * s.chunkSize ≤ s.maxsize →
      s'.cache.length * s.chunkSize ≤ s.maxsize) := by
  unfold dataAborted at h
  split at h
  · exact absurd h (by simp)
  · exact dataLoopAborted_state _ _ _ _ _ _ h

end BufferedUrlFile

/-- C5: after every sequence of operations on a `BufferedUrlFile`, the
sum of accounted sizes of the resident cache entries (the configured
chunk size per entry, regardless of the final chunk's true length) is at
most the configured `cache_size_bytes` budget. -/
theorem claim5_budget_invariant {content : Bytes} {chunkSize maxsize : Nat}
    {verbose : Bool} {s : UF}
    (h : OpReach (mkUF content chunkSize maxsize verbose) s) :
    s.cache.length * s.chunkSize ≤ s.maxsize := by
  induction h with
  | refl => simp [mkUF]
  | seek offset w hr ih =>
    cases w <;> simpa [UrlFile.seek] using ih
  | get hr hdata ih =>
    obtain ⟨-, -, hcs, hms, -, hb⟩ := BufferedUrlFile.data_state hdata
    rw [hcs, hms]
    exact hb ih
  | readOp hr hread ih =>
    obtain ⟨-, hcs, hms, -, -, hb⟩ := BufferedUrlFile.read_state hread
    rw [hcs, hms]
    exact hb ih
  | abortOp hr habort ih =>
    obtain ⟨-, -, hcs, hms, -, hb⟩ := BufferedUrlFile.dataAborted_state habort
    rw [hcs, hms]
    exact hb ih

/-- Witness for C5 at a concrete state reached by one coalesced get. -/
theorem claim5_budget_invariant_witness :
    (⟨[1, 2, 3, 4], 2, 4, true, 0, 4, 1, [(2, [3, 4]), (0, [1, 2])]⟩ : UF).cache.length *
        (⟨[1, 2, 3, 4], 2, 4, true, 0, 4, 1, [(2, [3, 4]), (0, [1, 2])]⟩ : UF).chunkSize
      ≤ (⟨[1, 2, 3, 4], 2, 4, true, 0, 4, 1, [(2, [3, 4]), (0, [1, 2])]⟩ : UF).maxsize :=
  @claim5_budget_invariant [1, 2, 3, 4] 2 4 true _
    (OpReach.get (OpReach.refl (mkUF [1, 2, 3, 4] 2 4 true))
      (show BufferedUrlFile.data (mkUF [1, 2, 3, 4] 2 4 true) 0 4
          = some ([1, 2, 3, 4],
              ⟨[1, 2, 3, 4], 2, 4, true, 0, 4, 1, [(2, [3, 4]), (0, [1, 2])]⟩)
        from by decide))

/-- C7 as amended: `seek` performs no bounds validation, so in general
the cursor can leave `[0, length]` (see the counterexample); the
invariant `0 ≤ pos ≤ length` does hold after every sequence of seek and
read operations in which each seek lands inside `[0, length]` and each
read requests at most `length - pos` bytes. -/
theorem claim7_cursor_bounds {content : Bytes} {chunkSize maxsize : Nat}
    {verbose : Bool} {s : UF}
    (h : InReach (mkUF content chunkSize maxsize verbose) s) :
    0 ≤ s.pos ∧ s.pos ≤ (s.length : Int) := by
  induction h with
  | refl => exact ⟨le_rfl, by simp [mkUF, UF.length]⟩
  | seek offset w hr h0 h1 ih => exact ⟨h0, h1⟩
  | @readU s size hr hsz ih =>
    obtain ⟨ih0, ih1⟩ := ih
    have hp : (UrlFile.read s size).2.pos
        = s.pos + (if 0 < size then size else ((s.length : Int) - s.pos)) := rfl
    have hl : (UrlFile.read s size).2.length = s.length := rfl
    rw [hp, hl]
    by_cases hps : 0 < size
    · rw [if_pos hps]
      exact ⟨by omega, by omega⟩
    · rw [if_neg hps]
      exact ⟨by omega, by omega⟩
  | @readB s size d s' hr hsz hread ih =>
    obtain ⟨ih0, ih1⟩ := ih
    obtain ⟨hcon, -, -, -, hp, -⟩ := BufferedUrlFile.read_state hread
    have hl : s'.length = s.length := by
      unfold UF.length
      rw [hcon]
    rw [hp, hl]
    by_cases hps : 0 < size
    · rw [if_pos hps]
      exact ⟨by omega, by omega⟩
    · rw [if_neg hps]
      exact ⟨by omega, by omega⟩

/-- Witness for the amended C7: an in-range seek followed by an in-range
read keeps the cursor within bounds. -/
theorem claim7_cursor_bounds_witness :
    0 ≤ (UrlFile.read (UrlFile.seek (mkUF [9, 9, 9, 9] 4 100 false) 1
          UrlFile.Whence.set) 2).2.pos ∧
    (UrlFile.read (UrlFile.seek (mkUF [9, 9, 9, 9] 4 100 false) 1
          UrlFile.Whence.set) 2).2.pos
      ≤ ((UrlFile.read (UrlFile.seek (mkUF [9, 9, 9, 9] 4 100 false) 1
          UrlFile.Whence.set) 2).2.length : Int) :=
  claim7_cursor_bounds
    (InReach.readU 2
      (InReach.seek 1 UrlFile.Whence.set (InReach.refl _) (by decide) (by decide))
      (by decide))

/-- C8 counterexample: `read(0)` does not delegate to `get(pos, 0)`;
because of the test `size if size > 0 else length - pos`, a size of
exactly 0 is replaced by `length - pos`, so `read(0)` reads the whole
remaining resource (here 5 bytes, not the empty byte string) and issues
a fetch. -/
theorem claim8_counterexample :
    (UrlFile.read (mkUF [10, 11, 12, 13, 14] 4 100 true) 0).1 ≠ [] ∧
    (UrlFile.read (mkUF [10, 11, 12, 13, 14] 4 100 true) 0).2.numRequests = 1 := by
  decide

/-- C8 as amended: a size of exactly 0 passed to `read` behaves exactly
like an omitted or negative size (it reads to the end of the resource,
on both classes); only a direct `BufferedUrlFile._data(start, 0)` with a
chunk-aligned `start` returns the empty byte string, issues no fetch and
leaves the state unchanged. -/
theorem claim8_read_zero (s : UF) (start : Int) (hne : s.chunkSize ≠ 0)
    (hal : start % (s.chunkSize : Int) = 0) :
    UrlFile.read s 0 = UrlFile.read s (-1) ∧
    BufferedUrlFile.read s 0 = BufferedUrlFile.read s (-1) ∧
    BufferedUrlFile.data s start 0 = some ([], s) := by
  refine ⟨by norm_num [UrlFile.read], by norm_num [BufferedUrlFile.read], ?_⟩
  simp only [BufferedUrlFile.data, if_neg hne]
  have ha : BufferedUrlFile.align s.chunkSize start = start := by
    unfold BufferedUrlFile.align
    rw [hal]
    ring
  rw [ha]
  have hf : (start + 0 - start).toNat + 1 = 0 + 1 := by norm_num
  rw [hf]
  simp only [BufferedUrlFile.dataLoop]
  rw [if_neg (by omega : ¬(start < start + 0))]
  simp [BufferedUrlFile.pySlice]

/-- Witness for the amended C8 at a concrete state and aligned start. -/
theorem claim8_read_zero_witness :
    ((mkUF [1, 2, 3, 4, 5] 4 7 true).chunkSize ≠ 0 ∧
      (4 : Int) % ((mkUF [1, 2, 3, 4, 5] 4 7 true).chunkSize : Int) = 0) ∧
    (UrlFile.read (mkUF [1, 2, 3, 4, 5] 4 7 true) 0
        = UrlFile.read (mkUF [1, 2, 3, 4, 5] 4 7 true) (-1) ∧
      BufferedUrlFile.read (mkUF [1, 2, 3, 4, 5] 4 7 true) 0
        = BufferedUrlFile.read (mkUF [1, 2, 3, 4, 5] 4 7 true) (-1) ∧
      BufferedUrlFile.data (mkUF [1, 2, 3, 4, 5] 4 7 true) 4 0
        = some ([], mkUF [1, 2, 3, 4, 5] 4 7 true)) :=
  ⟨⟨by decide, by decide⟩, claim8_read_zero _ 4 (by decide) (by decide)⟩

theorem getD_take {α : Type} {d : α} :
    ∀ (l : List α) (j i : Nat), i < j → (l.take j).getD i d = l.getD i d := by
  intro l
  induction l with
  | nil => intro j i _; simp
  | cons x xs ih =>
    intro j i hij
    cases j with
    | zero => omega
    | succ j =>
      cases i with
      | zero => simp
      | succ i => simpa using ih j i (by omega)

namespace BufferedUrlFile

theorem fetchAndCacheAborted_cache (s : UF) (start endI : Int) (j : Nat) :
    (fetchAndCacheAborted s start endI j).cache
      = insertPieces s.chunkSize s.maxsize start s.cache
          ((if s.verbose then chunksOf s.chunkSize
              (fetchBytes s.content start (min ((s.content.length : Int) - 1) endI))
            else []).take j) := by
  simp [fetchAndCacheAborted, fetchDataRange, rangeRequest, UF.length]

/-- A run fetch starting at an aligned offset and spanning whole chunk
widths leaves every cache entry correct, whichever value `verbose` has
(with `verbose = false` the cache is simply unchanged). -/
theorem fetchAndCache_cache_good {s : UF} (hc : 1 ≤ s.chunkSize)
    {ns R : Int} (h0 : 0 ≤ ns) (hal : ns % (s.chunkSize : Int) = 0)
    {m : Nat} (hm : R = ns + (m * s.chunkSize : Nat))
    (hg : ∀ e ∈ s.cache, goodEntry s.content s.chunkSize e) :
    ∀ e ∈ (fetchAndCache s ns (R - 1)).2.cache, goodEntry s.content s.chunkSize e := by
  rcases Bool.eq_false_or_eq_true s.verbose with hv | hv
  · exact fetchAndCache_cache_true hv hc h0 hal hm hg
  · rw [(fetchAndCache_false hv _ _).2]
    exact hg

/-- An aborted `_data` call only ever inserts complete, correct chunks:
the pieces streamed before the failure are exactly the correct chunk
contents for their keys, inserted one by one as they arrived. -/
theorem dataLoopAborted_good {endI : Int} :
    ∀ (fuel : Nat) (s : UF) (ns : Int) (m j : Nat) (s' : UF),
      1 ≤ s.chunkSize →
      (∀ e ∈ s.cache, goodEntry s.content s.chunkSize e) →
      0 ≤ ns → ns % (s.chunkSize : Int) = 0 →
      dataLoopAborted endI fuel s ns m j = some s' →
      ∀ e ∈ s'.cache, goodEntry s.content s.chunkSize e := by
  intro fuel
  induction fuel with
  | zero => intro s ns m j s' _ _ _ _ h; simp [dataLoopAborted] at h
  | succ f ih =>
    intro s ns m j s' hc hg h0 hal h
    simp only [dataLoopAborted] at h
    split at h
    · rename_i hlt
      split at h
      · exact ih { s with cache := cachePromote s.cache ns } (ns + s.chunkSize) m j s' hc
          (fun e he => hg e (cachePromote_subset e he)) (by omega)
          (by
            have h1 : ns + (s.chunkSize : Int) = ns + 1 * s.chunkSize := by ring
            rw [h1, Int.add_mul_emod_self, hal])
          h
      · obtain ⟨m', hR, hstop, hrun, hin⟩ :=
          @scanEnd_spec s.cache s.chunkSize hc endI
            ((endI - (ns + (s.chunkSize : Int))).toNat) (ns + s.chunkSize) le_rfl
        rw [hR] at h
        have hmc0 : (0 : Int) ≤ (m' : Int) * (s.chunkSize : Int) := by positivity
        have hm1 : ns + (s.chunkSize : Int) + (m' : Int) * s.chunkSize
            = ns + (((m' + 1) * s.chunkSize : Nat) : Int) := by push_cast; ring
        cases m with
        | zero =>
          have hs' : fetchAndCacheAborted s ns
              (ns + (s.chunkSize : Int) + (m' : Int) * s.chunkSize - 1) j = s' := by
            injection h
          subst hs'
          rw [fetchAndCacheAborted_cache]
          rcases Bool.eq_false_or_eq_true s.verbose with hv | hv
          · rw [hv, if_pos rfl]
            refine insertPieces_good _ _ _ hg ?_
            intro i hi
            have hj : i < j := by
              have h2 := List.length_take j (chunksOf s.chunkSize (fetchBytes s.content ns
                (min ((s.content.length : Int) - 1)
                  (ns + (s.chunkSize : Int) + (m' : Int) * s.chunkSize - 1))))
              omega
            have hlen : i < (chunksOf s.chunkSize (fetchBytes s.content ns
                (min ((s.content.length : Int) - 1)
                  (ns + (s.chunkSize : Int) + (m' : Int) * s.chunkSize - 1)))).length := by
              have h2 := List.length_take j (chunksOf s.chunkSize (fetchBytes s.content ns
                (min ((s.content.length : Int) - 1)
                  (ns + (s.chunkSize : Int) + (m' : Int) * s.chunkSize - 1))))
              omega
            rw [getD_take _ _ _ hj]
            rw [hm1] at hlen ⊢
            exact run_pieces_good hc h0 hal rfl i hlen
          · rw [hv]
            simp only [Bool.false_eq_true, if_false, List.take_nil]
            exact fun e he => hg e (by simpa [insertPieces] using he)
        | succ m2 =>
          exact ih (fetchAndCache s ns
              (ns + (s.chunkSize : Int) + (m' : Int) * s.chunkSize - 1)).2
            (ns + (s.chunkSize : Int) + (m' : Int) * s.chunkSize) m2 j s' hc
            (fetchAndCache_cache_good hc h0 hal hm1 hg)
            (by omega)
            (show (ns + (s.chunkSize : Int) + (m' : Int) * s.chunkSize)
                % (s.chunkSize : Int) = 0 by
              have h1 : ns + (s.chunkSize : Int) + (m' : Int) * s.chunkSize
                  = ns + ((m' : Int) + 1) * s.chunkSize := by ring
              rw [h1, Int.add_mul_emod_self, hal])
            h
    · exact absurd h (by simp)

end BufferedUrlFile

/-- C4 counterexample, refuting both parts of the original claim.
First, a get does NOT either return the full requested byte range or
fail: on a default (`verbose = false`) `BufferedUrlFile` over an 8 byte
resource, `get(0, 8)` succeeds yet returns the empty byte string (the
generator yields no pieces).  Second, on failure the cache is NOT
unchanged: with `verbose = true` and chunk size 4, a `get(0, 8)` whose
single run fetch fails after streaming 1 of its 2 pieces leaves chunk 0
in the cache even though the run fetch did not succeed, so the cache
holds part of an uncompleted run (lines 151-153 insert each piece as it
arrives, before the stream has finished). -/
theorem claim4_counterexample :
    (BufferedUrlFile.data (mkUF [10, 11, 12, 13, 14, 15, 16, 17] 4 100 false) 0 8).map
        (fun r => r.1)
      = some [] ∧
    (BufferedUrlFile.dataAborted (mkUF [10, 11, 12, 13, 14, 15, 16, 17] 4 100 true)
        0 8 0 1).map UF.cache
      = some [(0, [10, 11, 12, 13])] ∧
    (mkUF [10, 11, 12, 13, 14, 15, 16, 17] 4 100 true).cache = [] := by
  decide

/-- C4 as amended: neither all-or-nothing clause of the original claim
holds (see the counterexample: a default-verbose get succeeds returning
no bytes, and a failed run fetch leaves its already-streamed chunks
cached).  What does hold is chunk-level integrity: after a `get` from a
reachable state is interrupted by a transport failure at any point, every
retained cache entry is still a complete, correct chunk of the resource —
no partially transferred chunk bytes are ever inserted. -/
theorem claim4_abort_chunks_complete {content : Bytes} {chunkSize maxsize : Nat}
    {verbose : Bool} {s : UF}
    (hreach : CReach content chunkSize maxsize verbose s)
    {start size : Int} (h0 : 0 ≤ start) {m j : Nat} {s' : UF}
    (habort : BufferedUrlFile.dataAborted s start size m j = some s') :
    ∀ e ∈ s'.cache, goodEntry content chunkSize e := by
  obtain ⟨hcon, hcs, hms, hv, hg, hemp⟩ := CReach_ok hreach
  unfold BufferedUrlFile.dataAborted at habort
  split at habort
  · exact absurd habort (by simp)
  · rename_i hne
    have hc : 1 ≤ s.chunkSize := Nat.one_le_iff_ne_zero.mpr hne
    have hgs : ∀ e ∈ s.cache, goodEntry s.content s.chunkSize e := by
      rw [hcon, hcs]
      exact hg
    have hout := BufferedUrlFile.dataLoopAborted_good _ s _ m j s' hc hgs
      (BufferedUrlFile.align_nonneg hc h0) BufferedUrlFile.align_emod habort
    simpa only [hcon, hcs] using hout

/-- Witness for the amended C4: the single chunk left behind by the
aborted get of the counterexample is a complete, correct chunk. -/
theorem claim4_abort_chunks_complete_witness :
    goodEntry [10, 11, 12, 13, 14, 15, 16, 17] 4 (0, [10, 11, 12, 13]) :=
  claim4_abort_chunks_complete CReach.init (by norm_num)
    (show BufferedUrlFile.dataAborted (mkUF [10, 11, 12, 13, 14, 15, 16, 17] 4 100 true)
          0 8 0 1
        = some ⟨[10, 11, 12, 13, 14, 15, 16, 17], 4, 100, true, 0, 8, 1,
            [(0, [10, 11, 12, 13])]⟩
      from by decide)
    (0, [10, 11, 12, 13]) (by simp)

/-- On a default (`verbose = false`) object the cache never receives
anything, so every `_data` call returns the empty byte string and issues
exactly one range request whenever the chunk window is non-empty. -/
theorem dataFalse_eval {s : UF} (hv : s.verbose = false) (hcache : s.cache = [])
    (hc : 1 ≤ s.chunkSize) (start size : Int) :
    ∃ s', BufferedUrlFile.data s start size = some ([], s') ∧
      s'.cache = [] ∧ s'.verbose = false ∧ s'.chunkSize = s.chunkSize ∧
      s'.content = s.content ∧ s'.maxsize = s.maxsize ∧ s'.pos = s.pos ∧
      s'.numRequests = s.numRequests +
        (if BufferedUrlFile.align s.chunkSize start < start + size then 1 else 0) := by
  have hne : ¬s.chunkSize = 0 := by omega
  simp only [BufferedUrlFile.data, if_neg hne]
  obtain ⟨s', heq, h1, h2, h3, h4, h5, h6, h7⟩ :=
    BufferedUrlFile.dataLoop_false
      ((start + size - BufferedUrlFile.align s.chunkSize start).toNat + 1) s
      (BufferedUrlFile.align s.chunkSize start) [] hv hcache hc (Nat.lt_succ_self _)
  refine ⟨s', ?_, h1, h5, h3, h2, h4, h6, h7⟩
  rw [heq]
  simp [BufferedUrlFile.pySlice]

/-- C3 (evaluation at the failing input): with resource length
10,000,000 bytes, chunk size 1,048,576 bytes and a cache budget of 3
chunks (3,145,728 bytes), on a default (`verbose = False`) object a
first `get(0, 2_000_000)` on the empty cache issues exactly ONE fetch
call (the whole two-chunk run is coalesced, but the claim expects 2) and
returns no data, and the immediately repeated `get(0, 2_000_000)`
issues ONE further fetch (the claim expects 0): nothing was cached
because `_fetch_data_range` yields no pieces when `verbose` is false. -/
theorem claim3_scenario_eval (content : Bytes) (hL : content.length = 10000000) :
    ∃ s1 s2 : UF,
      BufferedUrlFile.data (mkUF content 1048576 3145728 false) 0 2000000
        = some ([], s1) ∧ s1.numRequests = 1 ∧
      BufferedUrlFile.data s1 0 2000000 = some ([], s2) ∧ s2.numRequests = 2 := by
  obtain ⟨s1, heq1, hc1, hv1, hcs1, -, -, -, hn1⟩ :=
    dataFalse_eval (s := mkUF content 1048576 3145728 false) rfl rfl
      (by show (1 : Nat) ≤ 1048576; norm_num) 0 2000000
  have hs1n : s1.numRequests = 1 := by
    rw [hn1]
    norm_num [BufferedUrlFile.align, mkUF]
  obtain ⟨s2, heq2, -, -, -, -, -, -, hn2⟩ :=
    dataFalse_eval hv1 hc1 (by rw [hcs1]; show (1 : Nat) ≤ 1048576; norm_num) 0 2000000
  refine ⟨s1, s2, heq1, hs1n, heq2, ?_⟩
  rw [hn2, hs1n, hcs1]
  norm_num [BufferedUrlFile.align, mkUF]

/-- Witness for C3: a resource of length exactly 10,000,000 exists. -/
theorem claim3_scenario_eval_witness :
    (List.replicate 10000000 0).length = 10000000 ∧
    ∃ s1 s2 : UF,
      BufferedUrlFile.data (mkUF (List.replicate 10000000 0) 1048576 3145728 false)
          0 2000000 = some ([], s1) ∧ s1.numRequests = 1 ∧
      BufferedUrlFile.data s1 0 2000000 = some ([], s2) ∧ s2.numRequests = 2 :=
  ⟨List.length_replicate _ _, claim3_scenario_eval _ (List.length_replicate _ _)⟩

theorem runCountAux_resident {c : Cache} {chunk : Nat} {k : Int}
    (h : cacheContains c k = true) (b b' : Bool) (n : Nat) :
    runCountAux c chunk b k n = runCountAux c chunk b' k n := by
  cases n <;> simp [runCountAux, h]

theorem runCountAux_true_block {c : Cache} {chunk : Nat} :
    ∀ (t n : Nat) (k : Int), t ≤ n →
      (∀ j : Nat, j < t → cacheContains c (k + (j * chunk : Nat)) = false) →
      (t = n ∨ cacheContains c (k + (t * chunk : Nat)) = true) →
      runCountAux c chunk true k n
        = runCountAux c chunk false (k + (t * chunk : Nat)) (n - t) := by
  intro t
  induction t with
  | zero =>
    intro n k _ _ hstop
    have hk : k + ((0 * chunk : Nat) : Int) = k := by push_cast; ring
    rw [hk, Nat.sub_zero]
    rcases hstop with h | h
    · rw [← h]
      rfl
    · rw [hk] at h
      exact runCountAux_resident h true false n
  | succ t ih =>
    intro n k hle hmiss hstop
    cases n with
    | zero => omega
    | succ n' =>
      have h0 : cacheContains c k = false := by
        have := hmiss 0 (by omega)
        simpa using this
      have hstep : runCountAux c chunk true k (n' + 1)
          = runCountAux c chunk true (k + chunk) n' := by
        simp [runCountAux, h0]
      rw [hstep]
      have hsh : ∀ j : Nat, j < t →
          cacheContains c (k + (chunk : Int) + (j * chunk : Nat)) = false := by
        intro j hj
        have := hmiss (j + 1) (by omega)
        have heq : k + (((j + 1) * chunk : Nat) : Int)
            = k + (chunk : Int) + ((j * chunk : Nat) : Int) := by push_cast; ring
        rw [heq] at this
        exact this
      have hst : t = n' ∨
          cacheContains c (k + (chunk : Int) + (t * chunk : Nat)) = true := by
        rcases hstop with h | h
        · exact Or.inl (by omega)
        · refine Or.inr ?_
          have heq : k + (((t + 1) * chunk : Nat) : Int)
              = k + (chunk : Int) + ((t * chunk : Nat) : Int) := by push_cast; ring
          rw [heq] at h
          exact h
      rw [ih n' (k + chunk) (by omega) hsh hst]
      have heq2 : k + (chunk : Int) + ((t * chunk : Nat) : Int)
          = k + (((t + 1) * chunk : Nat) : Int) := by push_cast; ring
      rw [heq2]
      congr 1
      omega

theorem runCount_miss_block {c : Cache} {chunk : Nat} {t n : Nat} {k : Int}
    (h1 : 1 ≤ t) (hle : t ≤ n)
    (hmiss : ∀ j : Nat, j < t → cacheContains c (k + (j * chunk : Nat)) = false)
    (hstop : t = n ∨ cacheContains c (k + (t * chunk : Nat)) = true) :
    runCount c chunk k n = 1 + runCount c chunk (k + (t * chunk : Nat)) (n - t) := by
  cases n with
  | zero => omega
  | succ n' =>
    have h0 : cacheContains c k = false := by
      have := hmiss 0 (by omega)
      simpa using this
    have hstep : runCount c chunk k (n' + 1)
        = 1 + runCountAux c chunk true (k + chunk) n' := by
      simp [runCount, runCountAux, h0]
    rw [hstep]
    congr 1
    have hsh : ∀ j : Nat, j < t - 1 →
        cacheContains c (k + (chunk : Int) + (j * chunk : Nat)) = false := by
      intro j hj
      have := hmiss (j + 1) (by omega)
      have heq : k + (((j + 1) * chunk : Nat) : Int)
          = k + (chunk : Int) + ((j * chunk : Nat) : Int) := by push_cast; ring
      rw [heq] at this
      exact this
    have hst : t - 1 = n' ∨
        cacheContains c (k + (chunk : Int) + ((t - 1) * chunk : Nat)) = true := by
      rcases hstop with h | h
      · exact Or.inl (by omega)
      · refine Or.inr ?_
        have hnn : t * chunk = chunk + (t - 1) * chunk := by
          have ht : t - 1 + 1 = t := Nat.succ_pred_eq_of_pos h1
          calc t * chunk = (t - 1 + 1) * chunk := by rw [ht]
          _ = chunk + (t - 1) * chunk := by ring
        have heq : k + ((t * chunk : Nat) : Int)
            = k + (chunk : Int) + (((t - 1) * chunk : Nat) : Int) := by
          rw [hnn]
          push_cast
          ring
        rw [heq] at h
        exact h
    rw [runCountAux_true_block (t - 1) n' (k + chunk) (by omega) hsh hst]
    have heq2 : k + (chunk : Int) + (((t - 1) * chunk : Nat) : Int)
        = k + ((t * chunk : Nat) : Int) := by
      have hnn : t * chunk = chunk + (t - 1) * chunk := by
        have ht : t - 1 + 1 = t := Nat.succ_pred_eq_of_pos h1
        calc t * chunk = (t - 1 + 1) * chunk := by rw [ht]
        _ = chunk + (t - 1) * chunk := by ring
      rw [hnn]
      push_cast
      ring
    rw [heq2]
    congr 1
    omega

/-- C3 counterexample: at the scenario configuration (length 10,000,000,
chunk 1,048,576, budget 3 chunks, default `verbose = False`), the first
`get(0, 2_000_000)` issues exactly 1 fetch call, not 2 (the single
maximal run of two missing chunks is coalesced into one range request,
as the spec's own P3 dictates), and the immediately repeated identical
get issues 1 further fetch, not 0 (nothing was cached because
`_fetch_data_range` yields no pieces when `verbose` is false). -/
theorem claim3_counterexample :
    (BufferedUrlFile.data (mkUF (List.replicate 10000000 0) 1048576 3145728 false)
        0 2000000).map
      (fun r => (r.2.numRequests,
        (BufferedUrlFile.data r.2 0 2000000).map (fun r2 => r2.2.numRequests)))
      = some (1, some 2) := by
  generalize List.replicate 10000000 0 = C
  obtain ⟨s1, heq1, hc1, hv1, hcs1, -, -, -, hn1⟩ :=
    dataFalse_eval (s := mkUF C 1048576 3145728 false)
      rfl rfl (by show (1 : Nat) ≤ 1048576; norm_num) 0 2000000
  have hs1n : s1.numRequests = 1 := by
    rw [hn1]
    norm_num [BufferedUrlFile.align, mkUF]
  obtain ⟨s2, heq2, -, -, -, -, -, -, hn2⟩ :=
    dataFalse_eval hv1 hc1 (by rw [hcs1]; show (1 : Nat) ≤ 1048576; norm_num) 0 2000000
  rw [heq1]
  simp only [Option.map_some']
  rw [heq2]
  simp only [Option.map_some']
  rw [hs1n, hn2, hs1n, hcs1]
  norm_num [BufferedUrlFile.align, mkUF]

theorem cacheContains_filter {c : Cache} {k start : Int} (h : k ≠ start) :
    cacheContains (c.filter fun x => x.1 ≠ start) k = cacheContains c k := by
  rcases Bool.eq_false_or_eq_true (cacheContains c k) with hc | hc
  · rw [hc]
    rcases cacheContains_iff.mp hc with ⟨v, hv⟩
    exact cacheContains_iff.mpr ⟨v, List.mem_filter.mpr ⟨hv, by simpa using h⟩⟩
  · rw [hc]
    rcases Bool.eq_false_or_eq_true (cacheContains (c.filter fun x => x.1 ≠ start) k)
      with hf | hf
    · rcases cacheContains_iff.mp hf with ⟨v, hv⟩
      have : cacheContains c k = true :=
        cacheContains_iff.mpr ⟨v, List.mem_of_mem_filter hv⟩
      rw [hc] at this
      exact absurd this (by simp)
    · exact hf

namespace BufferedUrlFile

theorem cacheInsert_noevict {chunk max' : Nat} {c : Cache} {start : Int} {p : Bytes}
    (hroom : (c.length + 1) * chunk ≤ max') :
    cacheInsert chunk max' c start p = (start, p) :: c.filter (fun x => x.1 ≠ start) := by
  unfold cacheInsert cacheEvict
  apply cacheEvictFuel_nofit
  have hle : (c.filter fun x => x.1 ≠ start).length ≤ c.length := List.length_filter_le _ _
  have h1 : ((start, p) :: c.filter fun x => x.1 ≠ start).length
      = (c.filter fun x => x.1 ≠ start).length + 1 := by
    simp
  rw [h1]
  calc ((c.filter fun x => x.1 ≠ start).length + 1) * chunk
      ≤ (c.length + 1) * chunk := Nat.mul_le_mul_right _ (by omega)
  _ ≤ max' := hroom

/-- Under enough budget room, inserting the pieces of a run neither
evicts anything nor changes residency of any key outside the run, and
grows the cache by at most the number of pieces. -/
theorem insertPieces_resident {chunk max' : Nat} :
    ∀ (ps : List Bytes) (start : Int) (c : Cache),
      (c.length + ps.length) * chunk ≤ max' →
      (insertPieces chunk max' start c ps).length ≤ c.length + ps.length ∧
      ∀ k : Int, (∀ i : Nat, i < ps.length → k ≠ start + (i * chunk : Nat)) →
        cacheContains (insertPieces chunk max' start c ps) k = cacheContains c k := by
  intro ps
  induction ps with
  | nil =>
    intro start c h
    exact ⟨by simp [insertPieces], fun k _ => rfl⟩
  | cons p tail ih =>
    intro start c hroom
    have hlc : (p :: tail).length = tail.length + 1 := by simp
    have hroom1 : (c.length + 1) * chunk ≤ max' := by
      have := Nat.mul_le_mul_right chunk
        (show c.length + 1 ≤ c.length + (tail.length + 1) by omega)
      rw [hlc] at hroom
      omega
    have hins := @cacheInsert_noevict chunk max' c start p hroom1
    have hlen1 : (cacheInsert chunk max' c start p).length ≤ c.length + 1 := by
      rw [hins]
      have := List.length_filter_le (fun x : Int × Bytes => x.1 ≠ start) c
      simp only [List.length_cons]
      omega
    have hroomrec : ((cacheInsert chunk max' c start p).length + tail.length) * chunk
        ≤ max' := by
      have h2 := Nat.mul_le_mul_right chunk
        (show (cacheInsert chunk max' c start p).length + tail.length
          ≤ c.length + (tail.length + 1) by omega)
      rw [hlc] at hroom
      omega
    obtain ⟨ihlen, ihres⟩ := ih (start + chunk) (cacheInsert chunk max' c start p) hroomrec
    constructor
    · simp only [insertPieces]
      rw [hlc]
      omega
    · intro k hk
      simp only [insertPieces]
      have hkstart : k ≠ start := by
        have := hk 0 (by simp)
        simpa using this
      rw [ihres k ?_]
      · rw [hins]
        have hd : (start = k) = False := eq_false (fun h => hkstart h.symm)
        have hstep : cacheContains ((start, p) :: c.filter fun x => x.1 ≠ start) k
            = cacheContains (c.filter fun x => x.1 ≠ start) k := by
          simp [cacheContains, hd]
        rw [hstep]
        exact cacheContains_filter hkstart
      · intro i hi
        have := hk (i + 1) (by simp; omega)
        have heq : start + (((i + 1) * chunk : Nat) : Int)
            = start + (chunk : Int) + ((i * chunk : Nat) : Int) := by push_cast; ring
        rw [heq] at this
        exact this

/-- The number of pieces delivered for a run spanning `t` chunk widths
is at most `t`. -/
theorem fetchPieces_le {s : UF} (hc : 1 ≤ s.chunkSize) {ns R : Int} {t : Nat}
    (hm : R = ns + (t * s.chunkSize : Nat)) :
    (fetchDataRange s ns (R - 1)).1.length ≤ t := by
  unfold fetchDataRange rangeRequest
  simp only
  split
  · by_contra hcon
    push_neg at hcon
    have hbound := chunksOf_length_bound (n := s.chunkSize) hc
      (fetchBytes s.content ns (min ((s.length : Int) - 1) (R - 1))).length _ t le_rfl hcon
    have hTlen : (fetchBytes s.content ns (min ((s.length : Int) - 1) (R - 1))).length
        = min (min ((s.length : Int) - 1) (R - 1) - ns + 1).toNat
            (s.content.length - ns.toNat) := by
      unfold fetchBytes
      rw [List.length_take, List.length_drop]
    rw [hTlen] at hbound
    have hLc : (s.length : Int) = (s.content.length : Int) := rfl
    rw [hLc] at hbound
    omega
  · simp

end BufferedUrlFile

theorem runCount_resident_head {c : Cache} {chunk : Nat} {k : Int} {n : Nat}
    (h : cacheContains c k = true) :
    runCount c chunk k (n + 1) = runCount c chunk (k + chunk) n := by
  simp [runCount, runCountAux, h]

namespace BufferedUrlFile

theorem fetchAndCache_cache (s : UF) (start endI : Int) :
    (fetchAndCache s start endI).2.cache
      = insertPieces s.chunkSize s.maxsize start s.cache
          (fetchDataRange s start endI).1 := rfl

/-- Counting invariant of the main loop of `_data`: with enough budget
room that no entry relevant to the window is ever evicted, the loop
issues exactly one range request per maximal run of missing chunks in
the window (as counted against the cache state `c₀` at entry), and the
cache grows by at most the number of window slots. -/
theorem dataLoop_count {endI : Int} {chunk : Nat} (hc : 1 ≤ chunk) {c₀ : Cache} :
    ∀ (fuel : Nat) (s : UF) (ns : Int) (buffer : Bytes) (n : Nat),
      s.chunkSize = chunk →
      (∀ k : Int, ns ≤ k → cacheContains s.cache k = cacheContains c₀ k) →
      (s.cache.length + n) * chunk ≤ s.maxsize →
      endI - ns ≤ ((n * chunk : Nat) : Int) →
      (∀ i : Nat, i < n → ns + ((i * chunk : Nat) : Int) < endI) →
      ∀ r, dataLoop endI fuel s ns buffer = some r →
        r.2.numRequests = s.numRequests + runCount c₀ chunk ns n ∧
        r.2.cache.length ≤ s.cache.length + n := by
  intro fuel
  induction fuel with
  | zero =>
    intro s ns buffer n _ _ _ _ _ r h
    exact absurd h (by simp [dataLoop])
  | succ f ih =>
    intro s ns buffer n hcs hres hroom hn1 hn2 r h
    by_cases hlt : ns < endI
    · have hnpos : n ≠ 0 := by
        intro h0
        subst h0
        simp at hn1
        omega
      obtain ⟨n', rfl⟩ : ∃ n', n = n' + 1 := ⟨n - 1, by omega⟩
      by_cases hhit : cacheContains s.cache ns = true
      · -- hit: one window slot resolved from the cache, no request
        simp only [dataLoop, if_pos hlt, if_pos hhit] at h
        rw [hcs] at h
        have hres0 : cacheContains c₀ ns = true := by
          rw [← hres ns le_rfl]
          exact hhit
        obtain ⟨ihn, ihl⟩ := ih { s with chunkSize := chunk, cache := cachePromote s.cache ns }
          (ns + chunk) (buffer ++ cacheLookup s.cache ns) n' rfl
          (fun k hk => by
            show cacheContains (cachePromote s.cache ns) k = cacheContains c₀ k
            rw [cachePromote_contains]
            exact hres k (by omega))
          (by
            show ((cachePromote s.cache ns).length + n') * chunk ≤ s.maxsize
            have hle : (cachePromote s.cache ns).length + n'
                ≤ s.cache.length + (n' + 1) :=
              Nat.add_le_add (cachePromote_length_le) (by omega)
            exact le_trans (Nat.mul_le_mul_right _ hle) hroom)
          (by
            have hb : ((n' + 1) * chunk : Nat) = ((n' * chunk : Nat) : Int) + chunk := by
              push_cast; ring
            omega)
          (fun i hi => by
            have := hn2 (i + 1) (by omega)
            have hb : ns + (((i + 1) * chunk : Nat) : Int)
                = ns + (chunk : Int) + ((i * chunk : Nat) : Int) := by push_cast; ring
            rw [hb] at this
            exact this)
          r h
        refine ⟨?_, ?_⟩
        · rw [ihn, runCount_resident_head hres0]
        · have := cachePromote_length_le (c := s.cache) (k := ns)
          calc r.2.cache.length ≤ (cachePromote s.cache ns).length + n' := ihl
          _ ≤ s.cache.length + (n' + 1) := by omega
      · -- miss: one request covers the maximal run of t missing slots
        simp only [dataLoop, if_pos hlt, if_neg hhit] at h
        rw [hcs] at h
        obtain ⟨m, hR, hstop, hrun, hwin⟩ :=
          @scanEnd_spec s.cache chunk hc endI
            ((endI - (ns + (chunk : Int))).toNat) (ns + chunk) le_rfl
        rw [hR] at h
        have hRt : ns + (chunk : Int) + (m : Int) * chunk
            = ns + (((m + 1) * chunk : Nat) : Int) := by push_cast; ring
        rw [hRt] at h
        -- the t = m + 1 missing window slots
        have hmiss : ∀ j : Nat, j < m + 1 →
            cacheContains c₀ (ns + ((j * chunk : Nat) : Int)) = false := by
          intro j hj
          cases j with
          | zero =>
            rw [← hres (ns + ((0 * chunk : Nat) : Int)) (by simp)]
            simpa using Bool.not_eq_true _ ▸ hhit
          | succ j' =>
            have hj' := hrun j' (by omega)
            have hb : ns + (chunk : Int) + (j' : Int) * chunk
                = ns + (((j' + 1) * chunk : Nat) : Int) := by push_cast; ring
            rw [hb] at hj'
            rw [← hres _ (by
              have : (0 : Int) ≤ (((j' + 1) * chunk : Nat) : Int) := by positivity
              omega)]
            exact hj'
        -- slot m + 1 - 1 = m of the run still lies inside the window
        have hlast : ns + (((m : Nat) * chunk : Nat) : Int) < endI := by
          cases m with
          | zero => simpa using hlt
          | succ m' =>
            have := hwin m' (by omega)
            have hb : ns + (chunk : Int) + (m' : Int) * chunk
                = ns + (((m' + 1) * chunk : Nat) : Int) := by push_cast; ring
            rw [hb] at this
            exact this
        have htle : m + 1 ≤ n' + 1 := by
          by_contra hcon
          push_neg at hcon
          have hmn : n' + 1 ≤ m := by omega
          have h1 : (n' + 1) * chunk ≤ m * chunk := Nat.mul_le_mul_right _ hmn
          have hb : (((n' + 1) * chunk : Nat) : Int) ≤ ((m * chunk : Nat) : Int) := by
            exact_mod_cast h1
          omega
        have hstop' : m + 1 = n' + 1 ∨
            cacheContains c₀ (ns + (((m + 1) * chunk : Nat) : Int)) = true := by
          rcases hstop with hs1 | hs1
          · refine Or.inl ?_
            by_contra hcon
            have hmn : m + 1 < n' + 1 := by omega
            have := hn2 (m + 1) hmn
            rw [hRt] at hs1
            omega
          · refine Or.inr ?_
            rw [hRt] at hs1
            rw [← hres _ (by
              have : (0 : Int) ≤ ((((m + 1) * chunk : Nat)) : Int) := by positivity
              omega)]
            exact hs1
        have hcount := @runCount_miss_block c₀ chunk
          (m + 1) (n' + 1) ns (by omega) htle hmiss hstop'
        -- the fetched pieces: at most m + 1 of them, all with keys below the new cursor
        have hple : (fetchDataRange s ns
            (ns + (((m + 1) * chunk : Nat) : Int) - 1)).1.length ≤ m + 1 := by
          refine fetchPieces_le (by omega) ?_
          rw [hcs]
        have hroomps : (s.cache.length
            + (fetchDataRange s ns (ns + (((m + 1) * chunk : Nat) : Int) - 1)).1.length)
              * chunk ≤ s.maxsize := by
          refine le_trans (Nat.mul_le_mul_right _ ?_) hroom
          omega
        obtain ⟨hinsl, hinsres⟩ := @insertPieces_resident chunk s.maxsize
          ((fetchDataRange s ns (ns + (((m + 1) * chunk : Nat) : Int) - 1)).1)
          ns s.cache hroomps
        have hcache1 : (fetchAndCache s ns
            (ns + (((m + 1) * chunk : Nat) : Int) - 1)).2.cache
            = insertPieces chunk s.maxsize ns s.cache
                (fetchDataRange s ns (ns + (((m + 1) * chunk : Nat) : Int) - 1)).1 := by
          rw [fetchAndCache_cache, hcs]
        obtain ⟨ihn, ihl⟩ := ih
          (fetchAndCache s ns (ns + (((m + 1) * chunk : Nat) : Int) - 1)).2
          (ns + (((m + 1) * chunk : Nat) : Int))
          (buffer ++ (fetchAndCache s ns (ns + (((m + 1) * chunk : Nat) : Int) - 1)).1)
          (n' + 1 - (m + 1))
          (by rw [fetchAndCache_chunkSize]; exact hcs)
          (fun k hk => by
            rw [hcache1]
            rw [hinsres k (fun i hi => by
              have hik : i + 1 ≤ m + 1 := by omega
              have h1 : (i + 1) * chunk ≤ (m + 1) * chunk := Nat.mul_le_mul_right _ hik
              have h2 : i * chunk + chunk ≤ (m + 1) * chunk := by
                have hb : (i + 1) * chunk = i * chunk + chunk := by ring
                omega
              have hb2 : ((i * chunk : Nat) : Int) + chunk
                  ≤ (((m + 1) * chunk : Nat) : Int) := by exact_mod_cast h2
              intro hkk
              rw [hkk] at hk
              omega)]
            exact hres k (by
              have : (0 : Int) ≤ ((((m + 1) * chunk : Nat)) : Int) := by positivity
              omega))
          (by
            rw [fetchAndCache_maxsize, hcache1]
            refine le_trans (Nat.mul_le_mul_right _ ?_) hroom
            have := hinsl
            omega)
          (by
            have hb : (((n' + 1) * chunk : Nat) : Int)
                = (((m + 1) * chunk : Nat) : Int)
                  + (((n' + 1 - (m + 1)) * chunk : Nat) : Int) := by
              have hn : (n' + 1) * chunk = (m + 1) * chunk + (n' + 1 - (m + 1)) * chunk := by
                have hdd : (m + 1) + (n' + 1 - (m + 1)) = n' + 1 := by omega
                calc (n' + 1) * chunk = ((m + 1) + (n' + 1 - (m + 1))) * chunk := by
                      rw [hdd]
                _ = (m + 1) * chunk + (n' + 1 - (m + 1)) * chunk := Nat.add_mul _ _ _
              exact_mod_cast hn
            omega)
          (fun i hi => by
            have := hn2 (i + (m + 1)) (by omega)
            have hb : ns + (((i + (m + 1)) * chunk : Nat) : Int)
                = ns + (((m + 1) * chunk : Nat) : Int) + ((i * chunk : Nat) : Int) := by
              push_cast; ring
            rw [hb] at this
            exact this)
          r h
        refine ⟨?_, ?_⟩
        · rw [ihn, fetchAndCache_numRequests, hcount]
          omega
        · rw [hcache1] at ihl
          calc r.2.cache.length
              ≤ (insertPieces chunk s.maxsize ns s.cache
                  (fetchDataRange s ns
                    (ns + (((m + 1) * chunk : Nat) : Int) - 1)).1).length
                + (n' + 1 - (m + 1)) := ihl
          _ ≤ s.cache.length + (n' + 1) := by
              have := hinsl
              omega
    · -- cursor already past the window: no slots, no requests
      have hn0 : n = 0 := by
        by_contra hcon
        have := hn2 0 (by omega)
        simp at this
        omega
      subst hn0
      simp only [dataLoop, if_neg hlt] at h
      cases h
      exact ⟨by simp [runCount, runCountAux], by simp⟩

end BufferedUrlFile

/-- C2 counterexample: on an 8-byte resource with chunk size 4 and a
cache budget of one chunk (4 bytes), after `get(4, 4)` has cached chunk
4, the window of `get(0, 8)` contains exactly 1 maximal run of missing
chunks (chunk 0; chunk 4 is resident), yet the call issues 2 range
fetches, not 1: inserting chunk 0 mid-call evicts chunk 4, so the
resident chunk is missing again by the time the loop reaches it. -/
theorem claim2_counterexample :
    (BufferedUrlFile.data (mkUF [10, 11, 12, 13, 14, 15, 16, 17] 4 4 true) 4 4).bind
        (fun r1 => (BufferedUrlFile.data r1.2 0 8).map
          (fun r2 => (runCount r1.2.cache 4 0 2,
                      r2.2.numRequests - r1.2.numRequests)))
      = some (1, 2) := by decide

/-- C2 (amended): a `get(start, size)` issues exactly `k` range fetches,
where `k` is the number of maximal contiguous runs of chunks absent from
the cache among the `n` chunk slots of the requested window, PROVIDED
the cache has room for `n` further entries within its byte budget (so
that no entry of the window is evicted while the call is still running);
the unconditional claim is refuted by `claim2_counterexample`, where a
mid-call eviction splits one run into two fetches. -/
theorem claim2_run_coalescing {s : UF} (hc : 1 ≤ s.chunkSize) {start size : Int} {n : Nat}
    (hn1 : start + size - BufferedUrlFile.align s.chunkSize start
      ≤ ((n * s.chunkSize : Nat) : Int))
    (hn2 : ∀ i : Nat, i < n →
      BufferedUrlFile.align s.chunkSize start + ((i * s.chunkSize : Nat) : Int)
        < start + size)
    (hroom : (s.cache.length + n) * s.chunkSize ≤ s.maxsize)
    {d : Bytes} {s' : UF}
    (hdata : BufferedUrlFile.data s start size = some (d, s')) :
    s'.numRequests = s.numRequests
      + runCount s.cache s.chunkSize (BufferedUrlFile.align s.chunkSize start) n := by
  obtain ⟨hne, buf, hloop, -⟩ := BufferedUrlFile.data_inner hdata
  exact (BufferedUrlFile.dataLoop_count hc _ s
    (BufferedUrlFile.align s.chunkSize start) [] n rfl (fun k _ => rfl) hroom hn1 hn2
    (buf, s') hloop).1

/-- Witness for C2: on an 8-byte resource with chunk size 4, budget 2
chunks and an empty cache, `get(0, 8)` spans one maximal missing run of
two chunks and issues exactly 1 fetch. -/
theorem claim2_run_coalescing_witness :
    1 ≤ (mkUF [10, 11, 12, 13, 14, 15, 16, 17] 4 8 true).chunkSize ∧
    ({ content := [10, 11, 12, 13, 14, 15, 16, 17], chunkSize := 4, maxsize := 8,
       verbose := true, pos := 0, totalBytesFetched := 8, numRequests := 1,
       cache := [(4, [14, 15, 16, 17]), (0, [10, 11, 12, 13])] } : UF).numRequests
      = (mkUF [10, 11, 12, 13, 14, 15, 16, 17] 4 8 true).numRequests
        + runCount (mkUF [10, 11, 12, 13, 14, 15, 16, 17] 4 8 true).cache
            (mkUF [10, 11, 12, 13, 14, 15, 16, 17] 4 8 true).chunkSize
            (BufferedUrlFile.align
              (mkUF [10, 11, 12, 13, 14, 15, 16, 17] 4 8 true).chunkSize 0) 2 :=
  ⟨by decide,
   @claim2_run_coalescing (mkUF [10, 11, 12, 13, 14, 15, 16, 17] 4 8 true) (by decide)
     0 8 2 (by decide)
     (fun i hi => by
       have hcase : i = 0 ∨ i = 1 := by omega
       rcases hcase with rfl | rfl <;> decide)
     (by decide)
     [10, 11, 12, 13, 14, 15, 16, 17]
     { content := [10, 11, 12, 13, 14, 15, 16, 17], chunkSize := 4, maxsize := 8,
       verbose := true, pos := 0, totalBytesFetched := 8, numRequests := 1,
       cache := [(4, [14, 15, 16, 17]), (0, [10, 11, 12, 13])] }
     (by decide)⟩
